import Mathlib

/-!
# Verification of the CV-analyzer entity extraction and normalization core

Shallow embedding of the Python modules `date_normalizer.py`, `skills_matcher.py`,
`entity_extractor.py` and `validation.py` of the cv-analyzer-streamlit repository,
together with theorems settling the specification claims about them.

Strings are modelled as `List Char`; Python's `re` patterns used by the code are
modelled by a small backtracking matcher (`P`) faithful to the leftmost /
greedy / first-alternative semantics of the `re` module for the patterns that
occur in the source.  `datetime.now()` is modelled by an explicit `today`
parameter.  Fallible code (dictionary `KeyError`s) is modelled with `Except`.
-/

namespace CV

/-! ## Character and string helpers (Python `str` semantics) -/

/-- Python whitespace characters (the ones `\s`, `.strip()` and `.split()` use). -/
def isWs (c : Char) : Bool := c = ' ' || c = '\t' || c = '\n' || c = '\r' || c = '\x0b' || c = '\x0c'

/-- Regex word character (`\w`), used for `\b` word boundaries. -/
def isWordChar (c : Char) : Bool := c.isAlphanum || c = '_'

/-- Python `str.lower()`. -/
def lower (s : List Char) : List Char := s.map Char.toLower

/-- Python containment test `needle in hay` on strings. -/
def listInfix (needle hay : List Char) : Bool :=
  needle.isPrefixOf hay ||
    match hay with
    | [] => false
    | _ :: t => listInfix needle t

/-- Python `hay.find(needle)` restricted to the case where `needle` occurs. -/
def infixIdx (needle hay : List Char) : Nat :=
  if needle.isPrefixOf hay then 0
  else match hay with
    | [] => 0
    | _ :: t => infixIdx needle t + 1

/-- Worker for `splitWs`: `cur` is the current word, reversed. -/
def splitWsGo (cur : List Char) : List Char → List (List Char)
  | [] => if cur.isEmpty then [] else [cur.reverse]
  | c :: t =>
    if isWs c then (if cur.isEmpty then splitWsGo [] t else cur.reverse :: splitWsGo [] t)
    else splitWsGo (c :: cur) t

/-- Python `str.split()` (split on whitespace runs, dropping empty pieces). -/
def splitWs (s : List Char) : List (List Char) := splitWsGo [] s

/-- Python `str.strip()`. -/
def strip (s : List Char) : List Char :=
  ((s.dropWhile isWs).reverse.dropWhile isWs).reverse

/-- Python slicing `text[i:j]` (for `i > j` this is `""`, as in Python). -/
def slice (s : List Char) (i j : Nat) : List Char := (s.drop i).take (j - i)

/-- `int()` on a string of decimal digits. -/
def toNum (s : List Char) : Nat := s.foldl (fun a c => a * 10 + (c.toNat - 48)) 0

/-- Python `f"{n:02d}"` for `n ≤ 99` (the only values formatted this way here,
    because the source clamps months to 12 and days to 28 beforehand). -/
def fmt02 (n : Nat) : List Char := [Nat.digitChar (n / 10 % 10), Nat.digitChar (n % 10)]

/-- The first `some` produced by `f` along a list. -/
def firstSome? : List α → (α → Option β) → Option β
  | [], _ => none
  | a :: t, f => match f a with
    | some b => some b
    | none => firstSome? t f

/-- Python `str.replace(old, new, 1)` with `new = ""`: delete the first occurrence. -/
def removeFirst (old : List Char) : List Char → List Char
  | [] => []
  | c :: t =>
    if old.isPrefixOf (c :: t) then (c :: t).drop old.length
    else c :: removeFirst old t

/-! ## A backtracking matcher for the `re` patterns of the source

A pattern `P` maps the previous character (`none` at the start of the text,
needed for `\b`) and the remaining input to the list of `(consumed, rest)`
alternatives in backtracking preference order.  `re` semantics for the
patterns used by the source: leftmost match, alternation prefers the left
branch, quantifiers are greedy. -/

abbrev P := Option Char → List Char → List (List Char × List Char)

/-- Last character of `prev ++ m`, the "previous char" after consuming `m`. -/
def lastOr (prev : Option Char) (m : List Char) : Option Char :=
  match m.getLast? with
  | some c => some c
  | none => prev

/-- Single character from a class. -/
def pChar (f : Char → Bool) : P := fun _ cs =>
  match cs with
  | [] => []
  | c :: t => if f c then [([c], t)] else []

/-- Sequencing, threading the previous character. -/
def pSeq (p q : P) : P := fun prev cs =>
  (p prev cs).flatMap fun mr =>
    (q (lastOr prev mr.1) mr.2).map fun mr2 => (mr.1 ++ mr2.1, mr2.2)

/-- Alternation `p|q` (left-preferring, like `re`). -/
def pAlt (p q : P) : P := fun prev cs => p prev cs ++ q prev cs

/-- The empty pattern. -/
def pEps : P := fun _ cs => [([], cs)]

/-- Pattern matching nothing at all. -/
def pFail : P := fun _ _ => []

/-- Greedy `p?`. -/
def pOpt (p : P) : P := pAlt p pEps

/-- Case-insensitive literal prefix; the consumed text keeps the original case. -/
def strPrefixCI : List Char → List Char → Option (List Char × List Char)
  | [], cs => some ([], cs)
  | _ :: _, [] => none
  | l :: ls, c :: cs =>
    if c.toLower = l.toLower then (strPrefixCI ls cs).map (fun mr => (c :: mr.1, mr.2))
    else none

/-- Case-insensitive literal (all `re` calls in `extract_dates` use `re.IGNORECASE`). -/
def pStrCI (lit : List Char) : P := fun _ cs =>
  match strPrefixCI lit cs with
  | some mr => [mr]
  | none => []

/-- Greedy counted repetition `f{lo,hi}` of a character class: alternatives from
    longest to shortest, none if fewer than `lo` class characters are available. -/
def pRep (f : Char → Bool) (lo hi : Nat) : P := fun _ cs =>
  let maxN := min hi (cs.takeWhile f).length
  (List.range (maxN + 1 - lo)).map fun i => (cs.take (maxN - i), cs.drop (maxN - i))

/-- Greedy `f+`. -/
def pRep1 (f : Char → Bool) : P := fun prev cs => pRep f 1 cs.length prev cs

/-- Word boundary `\b`. -/
def isWordOpt : Option Char → Bool
  | some c => isWordChar c
  | none => false

def pBoundary : P := fun prev cs =>
  if isWordOpt prev != isWordOpt cs.head? then [([], cs)] else []

/-- First (preferred) result of a pattern at the current position: `re` match. -/
def runP (p : P) (prev : Option Char) (cs : List Char) : Option (List Char × List Char) :=
  (p prev cs).head?

/-- `re.finditer`: leftmost non-overlapping matches with their `(start, end)` spans. -/
def finditerAux (p : P) : Nat → Option Char → List Char → Nat → List (List Char × Nat × Nat)
  | 0, _, _, _ => []
  | fuel + 1, prev, cs, pos =>
    match runP p prev cs with
    | some (m, r) =>
      if m.isEmpty then
        match cs with
        | [] => []
        | c :: t => finditerAux p fuel (some c) t (pos + 1)
      else (m, pos, pos + m.length) :: finditerAux p fuel (lastOr prev m) r (pos + m.length)
    | none =>
      match cs with
      | [] => []
      | c :: t => finditerAux p fuel (some c) t (pos + 1)

def finditer (p : P) (cs : List Char) : List (List Char × Nat × Nat) :=
  finditerAux p (cs.length + 1) none cs 0

/-- `re.search`: the leftmost match (its text), if any. -/
def searchAux (p : P) : Nat → Option Char → List Char → Option (List Char)
  | 0, _, _ => none
  | fuel + 1, prev, cs =>
    match runP p prev cs with
    | some (m, _) => some m
    | none =>
      match cs with
      | [] => none
      | c :: t => searchAux p fuel (some c) t

def search (p : P) (cs : List Char) : Option (List Char) :=
  searchAux p (cs.length + 1) none cs

/-- `re.match(pattern + '$', s)` style full match: some alternative consumes all input. -/
def matchesFull (p : P) (cs : List Char) : Bool :=
  (p none cs).any fun mr => mr.2 = []

/-- `re.match`: a match anchored at the start of the string. -/
def matchesAtStart (p : P) (cs : List Char) : Bool :=
  (p none cs).length != 0

/-! ## DateNormalizer (`modules/date_normalizer.py`) -/

/-- `[,.\s]` -/
def sepPunc (c : Char) : Bool := c = ',' || c = '.' || isWs c

/-- `[/\-]` -/
def dashSlash (c : Char) : Bool := c = '/' || c = '-'

def pDigit (c : Char) : Bool := c.isDigit

/-- Month-name alternation `(?:Jan(?:uary)?|...)`: each entry is a mandatory base
    and a greedy-optional suffix, tried in the regex's left-to-right order. -/
def pMonthAlt (alts : List (List Char × List Char)) : P :=
  alts.foldr (fun bs acc => pAlt (pSeq (pStrCI bs.1) (pOpt (pStrCI bs.2))) acc) pFail

def engMonthAlts : List (List Char × List Char) :=
  [("Jan".toList, "uary".toList), ("Feb".toList, "ruary".toList), ("Mar".toList, "ch".toList),
   ("Apr".toList, "il".toList), ("May".toList, [] ), ("Jun".toList, "e".toList),
   ("Jul".toList, "y".toList), ("Aug".toList, "ust".toList), ("Sep".toList, "tember".toList),
   ("Oct".toList, "ober".toList), ("Nov".toList, "ember".toList), ("Dec".toList, "ember".toList)]

def indMonthAlts : List (List Char × List Char) :=
  [("Januari".toList, []), ("Februari".toList, []), ("Maret".toList, []), ("April".toList, []),
   ("Mei".toList, []), ("Juni".toList, []), ("Juli".toList, []), ("Agustus".toList, []),
   ("September".toList, []), ("Oktober".toList, []), ("November".toList, []),
   ("Desember".toList, [])]

/-- `Month[,.\s]+(\d{1,2})[,.\s]+(\d{4})` -/
def patMonthDayYear (months : P) : P :=
  pSeq months (pSeq (pRep1 sepPunc) (pSeq (pRep pDigit 1 2) (pSeq (pRep1 sepPunc) (pRep pDigit 4 4))))

/-- `(\d{1,2})[,.\s]+Month[,.\s]+(\d{4})` -/
def patDayMonthYear (months : P) : P :=
  pSeq (pRep pDigit 1 2) (pSeq (pRep1 sepPunc) (pSeq months (pSeq (pRep1 sepPunc) (pRep pDigit 4 4))))

/-- `(\d{1,2})[/\-](\d{1,2})[/\-](\d{4})` -/
def patDMY : P :=
  pSeq (pRep pDigit 1 2) (pSeq (pChar dashSlash) (pSeq (pRep pDigit 1 2) (pSeq (pChar dashSlash) (pRep pDigit 4 4))))

/-- `(\d{4})[/\-](\d{1,2})[/\-](\d{1,2})` -/
def patYMD : P :=
  pSeq (pRep pDigit 4 4) (pSeq (pChar dashSlash) (pSeq (pRep pDigit 1 2) (pSeq (pChar dashSlash) (pRep pDigit 1 2))))

/-- `\b(20\d{2})\b` -/
def pat20xx : P :=
  pSeq pBoundary (pSeq (pStrCI "20".toList) (pSeq (pRep pDigit 2 2) pBoundary))

/-- `\b(19\d{2})\b` -/
def pat19xx : P :=
  pSeq pBoundary (pSeq (pStrCI "19".toList) (pSeq (pRep pDigit 2 2) pBoundary))

/-- `(?:Present|Current|Now)` -/
def patEngPresent : P :=
  pAlt (pStrCI "Present".toList) (pAlt (pStrCI "Current".toList) (pStrCI "Now".toList))

/-- `(?:Sekarang|Saat ini)` -/
def patIndPresent : P :=
  pAlt (pStrCI "Sekarang".toList) (pStrCI "Saat ini".toList)

/-- `self.date_formats.get(lang_code, self.date_formats['eng'])`, in source order. -/
def dateFormats (lang : String) : List P :=
  if lang = "ind" then
    [patMonthDayYear (pMonthAlt indMonthAlts), patDayMonthYear (pMonthAlt indMonthAlts),
     patDMY, patYMD, pat20xx, pat19xx, patIndPresent]
  else
    [patMonthDayYear (pMonthAlt engMonthAlts), patDayMonthYear (pMonthAlt engMonthAlts),
     patDMY, patYMD, pat20xx, pat19xx, patEngPresent]

/-- `self.month_names.get(lang_code, self.month_names['eng'])` in dict insertion order. -/
def monthNames (lang : String) : List (List Char × Nat) :=
  if lang = "ind" then
    [("januari".toList, 1), ("februari".toList, 2), ("maret".toList, 3), ("april".toList, 4),
     ("mei".toList, 5), ("juni".toList, 6), ("juli".toList, 7), ("agustus".toList, 8),
     ("september".toList, 9), ("oktober".toList, 10), ("november".toList, 11),
     ("desember".toList, 12)]
  else
    [("jan".toList, 1), ("january".toList, 1), ("feb".toList, 2), ("february".toList, 2),
     ("mar".toList, 3), ("march".toList, 3), ("apr".toList, 4), ("april".toList, 4),
     ("may".toList, 5), ("jun".toList, 6), ("june".toList, 6), ("jul".toList, 7),
     ("july".toList, 7), ("aug".toList, 8), ("august".toList, 8), ("sep".toList, 9),
     ("september".toList, 9), ("oct".toList, 10), ("october".toList, 10),
     ("nov".toList, 11), ("november".toList, 11), ("dec".toList, 12), ("december".toList, 12)]

/-- `self.present_indicators.get(lang_code, self.present_indicators['eng'])`. -/
def presentIndicators (lang : String) : List (List Char) :=
  if lang = "ind" then
    ["sekarang".toList, "saat ini".toList, "hingga kini".toList, "sampai sekarang".toList]
  else
    ["present".toList, "current".toList, "now".toList, "ongoing".toList]

/-- `DateNormalizer.is_present_indicator`. -/
def is_present_indicator (lang : String) (s : List Char) : Bool :=
  (presentIndicators lang).any fun ind => listInfix ind (lower s)

/-- `\b(19|20)\d{2}\b` (used by `normalize_date`, no IGNORECASE needed on digits). -/
def pYearB : P :=
  pSeq pBoundary (pSeq (pAlt (pStrCI "19".toList) (pStrCI "20".toList)) (pSeq (pRep pDigit 2 2) pBoundary))

/-- `\b(\d{1,2})\b` -/
def pDayB : P := pSeq pBoundary (pSeq (pRep pDigit 1 2) pBoundary)

/-- Up to two leading digits, greedy alternatives (for `(\d{1,2})` group capture). -/
def takeDigitsUpTo2 : List Char → List (List Char × List Char)
  | [] => []
  | [c1] => if c1.isDigit then [([c1], [])] else []
  | c1 :: c2 :: t =>
    if c1.isDigit then
      if c2.isDigit then [([c1, c2], t), ([c1], c2 :: t)] else [([c1], c2 :: t)]
    else []

/-- Exactly four leading digits (for `(\d{4})` group capture). -/
def takeDigits4 : List Char → Option (List Char × List Char)
  | a :: b :: c :: d :: t =>
    if a.isDigit && b.isDigit && c.isDigit && d.isDigit then some ([a, b, c, d], t) else none
  | _ => none

/-- Match `(\d{1,2})[/\-](\d{1,2})[/\-](\d{4})` at the current position, returning groups. -/
def matchDMYat (cs : List Char) : Option (List Char × List Char × List Char) :=
  firstSome? (takeDigitsUpTo2 cs) fun g1 =>
    match g1.2 with
    | s :: r2 =>
      if dashSlash s then
        firstSome? (takeDigitsUpTo2 r2) fun g2 =>
          match g2.2 with
          | s2 :: r4 =>
            if dashSlash s2 then (takeDigits4 r4).map (fun g3 => (g1.1, g2.1, g3.1)) else none
          | [] => none
      else none
    | [] => none

/-- Match `(\d{4})[/\-](\d{1,2})[/\-](\d{1,2})` at the current position, returning groups. -/
def matchYMDat (cs : List Char) : Option (List Char × List Char × List Char) :=
  match takeDigits4 cs with
  | some g1 =>
    (match g1.2 with
     | s :: r2 =>
       if dashSlash s then
         firstSome? (takeDigitsUpTo2 r2) fun g2 =>
           match g2.2 with
           | s2 :: r4 =>
             if dashSlash s2 then
               match takeDigitsUpTo2 r4 with
               | g3 :: _ => some (g1.1, g2.1, g3.1)
               | [] => none
             else none
           | [] => none
       else none
     | [] => none)
  | none => none

/-- `re.search` for a group-returning position matcher. -/
def searchGroups (m : List Char → Option α) : List Char → Option α
  | [] => m []
  | c :: t =>
    match m (c :: t) with
    | some g => some g
    | none => searchGroups m t

/-- The numeric-format tail of `normalize_date` (slash/dash triplets). -/
def normalizeNumeric (lang : String) (dt : List Char) : Option (List Char) :=
  match searchGroups matchDMYat dt with
  | some g =>
    -- MM/DD/YYYY for English, DD/MM/YYYY for every other language
    let mth := if lang = "eng" then toNum g.1 else toNum g.2.1
    let dy := if lang = "eng" then toNum g.2.1 else toNum g.1
    some (g.2.2 ++ '-' :: fmt02 (min mth 12) ++ '-' :: fmt02 (min dy 28))
  | none =>
    match searchGroups matchYMDat dt with
    | some g =>
      some (g.1 ++ '-' :: fmt02 (min (toNum g.2.1) 12) ++ '-' :: fmt02 (min (toNum g.2.2) 28))
    | none => none

/-- `DateNormalizer.normalize_date` (with `datetime.now().strftime('%Y-%m-%d')`
    supplied as the `today` parameter). -/
def normalize_date (today : List Char) (lang : String) (dt : List Char) : Option (List Char) :=
  if is_present_indicator lang dt then some today
  else
    match search pYearB dt with
    | some ym =>
      if (strip dt).length ≤ 5 then some (ym ++ "-01-01".toList)
      else normalizeMonthOrNumeric today lang dt
    | none => normalizeMonthOrNumeric today lang dt
where
  /-- The month-name branch falling through to the numeric branch.  In the
      source the month loop only returns when a year is also present, so the
      month branch applies iff some month name occurs and a year is found. -/
  normalizeMonthOrNumeric (_today : List Char) (lang : String) (dt : List Char) :
      Option (List Char) :=
    match (monthNames lang).find? (fun mn => listInfix mn.1 (lower dt)), search pYearB dt with
    | some mn, some ym =>
      let day := match search pDayB dt with
        | some dm => toNum dm
        | none => 1
      some (ym ++ '-' :: fmt02 mn.2 ++ '-' :: fmt02 (min day 28))
    | _, _ => normalizeNumeric lang dt

/-- One extracted date span (`extract_dates` list element). -/
structure DateSpan where
  original : List Char
  normalized : List Char
  is_present : Bool
  startPos : Nat
  endPos : Nat
deriving DecidableEq, Repr

/-- `DateNormalizer.extract_dates`.  The `try/except` around `normalize_date`
    is unreachable in the model because the embedded `normalize_date` is total. -/
def extract_dates (today : List Char) (text : List Char) (lang : String) : List DateSpan :=
  if text = [] then []
  else
    (dateFormats lang).flatMap fun p =>
      (finditer p text).filterMap fun mse =>
        match normalize_date today lang mse.1 with
        | some norm =>
          -- `if normalized:` – Python truthiness of an optional string
          if norm ≠ [] then
            some ⟨mse.1, norm, is_present_indicator lang mse.1, mse.2.1, mse.2.2⟩
          else none
        | none => none

/-- Stable insertion of a span into a position-sorted list (a new element goes
    after existing elements with the same start, matching `list.sort` stability). -/
def sortInsert (x : DateSpan) : List DateSpan → List DateSpan
  | [] => [x]
  | y :: t => if y.startPos ≤ x.startPos then y :: sortInsert x t else x :: y :: t

/-- `dates.sort(key=lambda x: x['position'][0])` (stable, ascending). -/
def sortByPos (l : List DateSpan) : List DateSpan := l.foldl (fun acc x => sortInsert x acc) []

/-- Separator test on the text strictly between two spans. -/
def hasSep (between : List Char) : Bool :=
  listInfix "-".toList between || listInfix "to".toList (lower between) ||
    listInfix "hingga".toList (lower between)

/-- The scan over consecutive sorted spans for a separator between them. -/
def findSepPair (text : List Char) : List DateSpan → Option (DateSpan × DateSpan)
  | a :: b :: t =>
    if hasSep (slice text a.endPos b.startPos) then some (a, b)
    else findSepPair text (b :: t)
  | _ => none

/-- `DateNormalizer.extract_date_range`. -/
def extract_date_range (today : List Char) (text : List Char) (lang : String) :
    Option (List Char) × Option (List Char) :=
  match extract_dates today text lang with
  | [] => (none, none)
  | [d] => if d.is_present then (none, some d.normalized) else (some d.normalized, none)
  | d1 :: d2 :: rest =>
    let sorted := sortByPos (d1 :: d2 :: rest)
    match findSepPair text sorted with
    | some ab => (some ab.1.normalized, some ab.2.normalized)
    | none => (sorted.head?.map (·.normalized), (sorted.getLast?).map (·.normalized))

/-- The range-assembly rule exactly as the specification words it (zero spans →
    both null; one span → present indicator to `end_date` only, else `start_date`
    only; two or more → sort ascending by position, first consecutive pair with a
    separator strictly between them wins, else first and last span).  Used to
    state claim C2 as a refinement of `extract_date_range`. -/
def date_range_claim (today : List Char) (text : List Char) (lang : String) :
    Option (List Char) × Option (List Char) :=
  let ds := extract_dates today text lang
  match ds with
  | [] => (none, none)
  | [d] => if d.is_present then (none, some d.normalized) else (some d.normalized, none)
  | _ :: _ :: _ =>
    let sorted := sortByPos ds
    match (sorted.zip sorted.tail).find? (fun ab => hasSep (slice text ab.1.endPos ab.2.startPos)) with
    | some ab => (some ab.1.normalized, some ab.2.normalized)
    | none => (sorted.head?.map (·.normalized), sorted.getLast?.map (·.normalized))

/-! ## SkillsMatcher (`modules/skills_matcher.py`)

The rapidfuzz scorer `fuzz.token_sort_ratio` is an external library function;
it is modelled as an opaque parameter `score` of `extract_skills` (a function
from the candidate phrase and the dictionary skill to a 0–100 score), and
`process.extract(..., limit=1, score_cutoff=θ)` as the best-scoring skill,
kept only when its score is at least the cutoff.  The per-language skill
dictionaries (loaded from configuration files) and the configured fuzzy
threshold are likewise parameters. -/

inductive MatchType where
  | exact
  | fuzzy
deriving DecidableEq, Repr

structure SkillMatch where
  skill : List Char
  confidence : ℚ
  match_type : MatchType
deriving DecidableEq, Repr

/-- `' '.join(...)`. -/
def joinSpaces : List (List Char) → List Char
  | [] => []
  | [w] => w
  | w :: t => w ++ ' ' :: joinSpaces t

/-- `process.extract(phrase, skills_set, scorer=..., limit=1)` without the
    cutoff: the best-scoring skill (first wins ties, iteration order). -/
def bestMatch (score : List Char → List Char → ℚ) (ph : List Char)
    (skills : List (List Char)) : Option (List Char × ℚ) :=
  skills.foldl
    (fun acc s =>
      match acc with
      | none => some (s, score ph s)
      | some sv => if score ph s > sv.2 then some (s, score ph s) else acc)
    none

/-- One step of the duplicate-removal dict
    (`if skill not in unique or conf > unique[skill].conf: unique[skill] = match`). -/
def updAssoc (l : List (List Char × SkillMatch)) (m : SkillMatch) :
    List (List Char × SkillMatch) :=
  if l.any (fun p => p.1 = m.skill) then
    l.map fun p => if p.1 = m.skill && m.confidence > p.2.confidence then (p.1, m) else p
  else l ++ [(m.skill, m)]

/-- `unique_skills` insertion-ordered dict, then `list(unique_skills.values())`. -/
def dedupBest (ms : List SkillMatch) : List SkillMatch :=
  (ms.foldl updAssoc []).map (·.2)

/-- `SkillsMatcher.extract_skills`. -/
def extract_skills (score : List Char → List Char → ℚ) (θ : ℚ)
    (skillsEng skillsInd : List (List Char)) (text : List Char) (lang : String) :
    List SkillMatch :=
  if text = [] || (lang ≠ "eng" && lang ≠ "ind") then []
  else
    let skills := if lang = "ind" then skillsInd else skillsEng
    if skills = [] then []
    else
      let textL := lower text
      let exacts := skills.filterMap fun s =>
        if listInfix (lower s) textL then some (⟨s, 1, .exact⟩ : SkillMatch) else none
      let ws := splitWs textL
      let phrases := (List.range ws.length).flatMap fun i =>
        (List.range' 1 (min 4 (ws.length - i))).map fun j => joinSpaces ((ws.drop i).take j)
      let fuzzies := phrases.filterMap fun ph =>
        if ph.length < 3 then none
        else
          match bestMatch score ph skills with
          | some sv =>
            if sv.2 ≥ θ then
              if exacts.any (fun m => m.skill = sv.1) then none
              else some (⟨sv.1, sv.2 / 100, .fuzzy⟩ : SkillMatch)
            else none
          | none => none
      dedupBest (exacts ++ fuzzies)

/-! ## EntityExtractor (`modules/entity_extractor.py`)

A spaCy `Doc` is modelled by the pieces the extractor reads: the raw text,
the sentences (each with its text, its entity spans and its POS-tagged
tokens) and the document-level entity spans.  Keyword-table accesses
`table[lang_code]` are modelled with `Except` so that a missing key is a
`KeyError`, as in Python. -/

structure EToken where
  text : List Char
  pos : String
deriving DecidableEq, Repr

structure EEnt where
  text : List Char
  label : String
deriving DecidableEq, Repr

structure ESent where
  text : List Char
  ents : List EEnt
  tokens : List EToken
deriving DecidableEq, Repr

structure SpacyDoc where
  text : List Char
  sents : List ESent
  ents : List EEnt
deriving DecidableEq, Repr

/-- `table[lang_code]`: `KeyError` when absent. -/
def lookupTable (t : List (String × α)) (k : String) : Except String α :=
  match t.find? (fun p => p.1 = k) with
  | some p => .ok p.2
  | none => .error ("KeyError: " ++ k)

/-- `[A-Za-z0-9._%+-]` -/
def emailChar1 (c : Char) : Bool :=
  c.isAlphanum || c = '.' || c = '_' || c = '%' || c = '+' || c = '-'

/-- `[A-Za-z0-9.-]` -/
def emailChar2 (c : Char) : Bool := c.isAlphanum || c = '.' || c = '-'

/-- `[A-Z|a-z]` (the source's character class contains a literal `|`). -/
def emailTld (c : Char) : Bool := c.isUpper || c = '|' || c.isLower

/-- Greedy `f{lo,}`. -/
def pRepMin (f : Char → Bool) (lo : Nat) : P := fun prev cs => pRep f lo cs.length prev cs

/-- `\b[A-Za-z0-9._%+-]+@[A-Za-z0-9.-]+\.[A-Z|a-z]{2,}\b` -/
def patEmail : P :=
  pSeq pBoundary (pSeq (pRep1 emailChar1) (pSeq (pChar (· = '@'))
    (pSeq (pRep1 emailChar2) (pSeq (pChar (· = '.')) (pSeq (pRepMin emailTld 2) pBoundary)))))

/-- `[-.\s]` -/
def phoneSep (c : Char) : Bool := c = '-' || c = '.' || isWs c

/-- `\b(?:\+\d{1,3}[-.\s]?)?\(?\d{3,4}\)?[-.\s]?\d{3,4}[-.\s]?\d{3,4}\b` -/
def patPhone : P :=
  pSeq pBoundary
    (pSeq (pOpt (pSeq (pChar (· = '+')) (pSeq (pRep pDigit 1 3) (pOpt (pChar phoneSep)))))
      (pSeq (pOpt (pChar (· = '(')))
        (pSeq (pRep pDigit 3 4)
          (pSeq (pOpt (pChar (· = ')')))
            (pSeq (pOpt (pChar phoneSep))
              (pSeq (pRep pDigit 3 4)
                (pSeq (pOpt (pChar phoneSep)) (pSeq (pRep pDigit 3 4) pBoundary))))))))

/-- `\b\d{5}\b` (postal code; identical for both languages in the source). -/
def patPostal : P := pSeq pBoundary (pSeq (pRep pDigit 5 5) pBoundary)

structure PersonalInfo where
  name : Option (List Char)
  email : Option (List Char)
  phone : Option (List Char)
  address : Option (List Char)
deriving DecidableEq, Repr

/-- Python truthiness of an optional string. -/
def optTruthy : Option (List Char) → Bool
  | some s => s ≠ []
  | none => false

/-- `", ".join(...)`. -/
def joinComma : List (List Char) → List Char
  | [] => []
  | [x] => x
  | x :: t => x ++ ',' :: ' ' :: joinComma t

/-- `EntityExtractor.extract_address`. -/
def extract_address (doc : SpacyDoc) (_lang : String) : Option (List Char) :=
  let addrEnts := (doc.ents.filter fun e => e.label = "GPE" || e.label = "LOC").map (·.text)
  let postal := (finditer patPostal doc.text).map (·.1)
  if addrEnts ≠ [] && postal ≠ [] then some (joinComma (addrEnts.take 2 ++ postal.take 1))
  else if addrEnts ≠ [] then some (joinComma (addrEnts.take 2))
  else none

/-- `EntityExtractor.extract_personal_info`. -/
def extract_personal_info (doc : SpacyDoc) (lang : String) : PersonalInfo :=
  { email := search patEmail doc.text
  , phone := search patPhone doc.text
  , name := ((doc.ents.filter fun e => e.label = "PERSON").map (·.text)).head?
  , address := extract_address doc lang }

/-- `list(set(...))`: the Python set has arbitrary order; modelled as
    first-occurrence de-duplication (the claims never depend on the order). -/
def dedupList (l : List (List Char)) : List (List Char) :=
  l.foldl (fun acc x => if acc.contains x then acc else acc ++ [x]) []

def programmingSkills : List (List Char) :=
  ["Python".toList, "Java".toList, "JavaScript".toList, "HTML".toList, "CSS".toList,
   "SQL".toList]

/-- `EntityExtractor.extract_skills` (the extractor's own simple version). -/
def extract_skills_entity (doc : SpacyDoc) (_lang : String) : List (List Char) :=
  let textL := lower doc.text
  dedupList ((doc.ents.filter fun e => e.label = "SKILL").map (·.text)
    ++ programmingSkills.filter fun s => listInfix (lower s) textL)

def education_keywords : List (String × List (List Char)) :=
  [("eng", ["education".toList, "university".toList, "college".toList, "degree".toList,
            "bachelor".toList, "master".toList, "phd".toList, "diploma".toList]),
   ("ind", ["pendidikan".toList, "universitas".toList, "kuliah".toList, "gelar".toList,
            "sarjana".toList, "magister".toList, "doktor".toList, "diploma".toList])]

def experience_keywords : List (String × List (List Char)) :=
  [("eng", ["experience".toList, "work".toList, "employment".toList, "job".toList,
            "position".toList, "role".toList, "career".toList]),
   ("ind", ["pengalaman".toList, "kerja".toList, "pekerjaan".toList, "posisi".toList,
            "jabatan".toList, "karir".toList])]

structure EduEntry where
  institution : List Char
  degree : Option (List Char)
  fieldOfStudy : Option (List Char)
  dates : Option (List (List Char))
deriving DecidableEq, Repr

structure WorkEntry where
  company : List Char
  title : Option (List Char)
  dates : Option (List (List Char))
  responsibilities : List (List Char)
deriving DecidableEq, Repr

/-- `EntityExtractor.extract_education` (`self.education_keywords[lang_code]` is
    looked up once, before the sentence loop). -/
def extract_education (doc : SpacyDoc) (lang : String) : Except String (List EduEntry) := do
  let kws ← lookupTable education_keywords lang
  pure <| doc.sents.filterMap fun sent =>
    let sentL := lower sent.text
    if kws.any (fun k => listInfix k sentL) then
      match (sent.ents.filter fun e => e.label = "ORG").map (·.text) with
      | [] => none
      | o :: _ =>
        let dates := (sent.ents.filter fun e => e.label = "DATE").map (·.text)
        some ⟨o, none, none, if dates = [] then none else some (dates.take 2)⟩
    else none

/-- `EntityExtractor.extract_work_experience`. -/
def extract_work_experience (doc : SpacyDoc) (lang : String) :
    Except String (List WorkEntry) := do
  let kws ← lookupTable experience_keywords lang
  pure <| doc.sents.filterMap fun sent =>
    let sentL := lower sent.text
    if kws.any (fun k => listInfix k sentL) then
      match (sent.ents.filter fun e => e.label = "ORG").map (·.text) with
      | [] => none
      | o :: _ =>
        let dates := (sent.ents.filter fun e => e.label = "DATE").map (·.text)
        some ⟨o, none, if dates = [] then none else some (dates.take 2), []⟩
    else none

/-- The source's `language_keywords` table has only an `'eng'` entry. -/
def language_keywords : List (String × List (List Char)) :=
  [("eng", ["language".toList, "languages".toList, "speak".toList, "fluent".toList])]

def common_languages : List (List Char) :=
  ["English".toList, "Indonesian".toList, "French".toList, "Spanish".toList,
   "German".toList, "Chinese".toList]

/-- `EntityExtractor.extract_languages`.  `language_keywords[lang_code]` is
    evaluated inside the per-sentence `any(...)`, so the lookup (and its
    possible `KeyError`) only happens when at least one sentence exists. -/
def extract_languages (doc : SpacyDoc) (lang : String) :
    Except String (List (List Char)) := do
  let ls ← doc.sents.foldlM
    (fun (acc : List (List Char)) sent => do
      let kws ← lookupTable language_keywords lang
      let sentL := lower sent.text
      if kws.any (fun k => listInfix k sentL) then
        pure (acc ++ common_languages.filter fun l => listInfix (lower l) sentL)
      else pure acc)
    []
  pure (dedupList ls)

/-- The source's `cert_keywords` table has only an `'eng'` entry. -/
def cert_keywords : List (String × List (List Char)) :=
  [("eng", ["certification".toList, "certificate".toList, "certified".toList])]

/-- `EntityExtractor.extract_certifications`. -/
def extract_certifications (doc : SpacyDoc) (lang : String) :
    Except String (List (List Char)) := do
  let cs ← doc.sents.foldlM
    (fun (acc : List (List Char)) sent => do
      let kws ← lookupTable cert_keywords lang
      let sentL := lower sent.text
      if kws.any (fun k => listInfix k sentL) then
        pure (acc ++ (sent.tokens.filter fun t => t.pos = "PROPN" && t.text.length > 2).map (·.text))
      else pure acc)
    []
  pure (dedupList cs)

def summary_headers : List (String × List (List Char)) :=
  [("eng", ["summary".toList, "profile".toList, "professional summary".toList,
            "about me".toList]),
   ("ind", ["ringkasan".toList, "profil".toList, "tentang saya".toList])]

/-- `EntityExtractor.extract_summary`. -/
def extract_summary (doc : SpacyDoc) (lang : String) :
    Except String (Option (List Char)) := do
  let headers ← lookupTable summary_headers lang
  let textL := lower doc.text
  match headers.find? (fun h => listInfix h textL) with
  | some h =>
    let sec0 := (doc.text.drop (infixIdx h textL)).take 300
    let sec := headers.foldl
      (fun sec nh =>
        if nh ≠ h && listInfix nh (lower sec) then sec.take (infixIdx nh (lower sec)) else sec)
      sec0
    pure (some (strip (removeFirst h sec)))
  | none =>
    pure (((doc.sents.take 3).find? fun s => (splitWs s.text).length > 10).map (·.text))

structure ConfScores where
  overall : ℚ
  personal_info : ℚ
  skills : ℚ
  education : ℚ
  work_experience : ℚ
deriving DecidableEq, Repr

/-- `EntityExtractor.calculate_overall_confidence` (first matching rule wins). -/
def calculate_overall_confidence (pi : PersonalInfo) (skills : List (List Char))
    (edu : List EduEntry) (work : List WorkEntry) : ℚ :=
  if !optTruthy pi.name || !optTruthy pi.email then 0.5
  else if skills.length < 2 then 0.6
  else if edu = [] || work = [] then 0.7
  else 0.9

/-- `EntityExtractor.calculate_personal_info_confidence` (`count` is a Python
    `int`, modelled as `Nat`). -/
def calculate_personal_info_confidence (pi : PersonalInfo) : ℚ :=
  let sc1 : ℚ × Nat := if optTruthy pi.name then (1, 1) else (0, 0)
  let sc2 : ℚ × Nat :=
    match pi.email with
    | some e => if e ≠ [] && matchesAtStart patEmail e then (1, 1) else (0, 0)
    | none => (0, 0)
  let sc3 : ℚ × Nat :=
    match pi.phone with
    | some p => if p ≠ [] && matchesAtStart patPhone p then (1, 1) else (0, 0)
    | none => (0, 0)
  let sc4 : ℚ × Nat := if optTruthy pi.address then (0.8, 1) else (0, 0)
  let count := sc1.2 + sc2.2 + sc3.2 + sc4.2
  if count > 0 then (sc1.1 + sc2.1 + sc3.1 + sc4.1) / (count : ℚ) else 0

structure ExtractedRecord where
  personal_info : PersonalInfo
  skills : List (List Char)
  education : List EduEntry
  work_experience : List WorkEntry
  languages : List (List Char)
  certifications : List (List Char)
  summary : Option (List Char)
  confidence_scores : ConfScores
deriving DecidableEq, Repr

/-- `EntityExtractor.extract_entities`: the result dict's values are computed in
    source order, so the first extractor that raises aborts the whole call. -/
def extract_entities (doc : SpacyDoc) (lang : String) : Except String ExtractedRecord := do
  let pi := extract_personal_info doc lang
  let sk := extract_skills_entity doc lang
  let ed ← extract_education doc lang
  let we ← extract_work_experience doc lang
  let lgs ← extract_languages doc lang
  let crt ← extract_certifications doc lang
  let sm ← extract_summary doc lang
  pure
    { personal_info := pi, skills := sk, education := ed, work_experience := we
    , languages := lgs, certifications := crt, summary := sm
    , confidence_scores :=
      { overall := calculate_overall_confidence pi sk ed we
      , personal_info := calculate_personal_info_confidence pi
      , skills := if sk ≠ [] then 0.85 else 0.0
      , education := if ed ≠ [] then 0.85 else 0.0
      , work_experience := if we ≠ [] then 0.85 else 0.0 } }

/-! ## Validator (`modules/validation.py`)

`validate_extracted_data` works on mutable Python dicts (`.copy()` followed by
key assignments), so it is modelled against an explicit heap of dictionary
objects: a value is either an immediate value or a reference into the heap,
every `.copy()` is an allocation, and every key assignment is a store.  The
lists occurring in a record are never mutated in place by the source, so they
are modelled as immediate values.  The frame property of claim C9 is then a
real statement: no pre-existing heap cell is changed. -/

inductive PVal where
  | pynone
  | str (s : List Char)
  | bool (b : Bool)
  | num (q : ℚ)
  | list (xs : List PVal)
  | ref (a : Nat)

abbrev PDict := List (String × PVal)

abbrev Heap := List PDict

def getObj (h : Heap) (a : Nat) : PDict := h.getD a []

/-- Allocate a fresh dict object (`dict.copy()` / a dict literal). -/
def allocD (h : Heap) (d : PDict) : Nat × Heap := (h.length, h ++ [d])

/-- `d[k] = v` preserving Python's dict insertion order: update the slot of `k`
    in place if present (a Python dict holds each key at most once), otherwise
    append the new key at the end. -/
def dictSet : PDict → String → PVal → PDict
  | [], k, v => [(k, v)]
  | p :: t, k, v => if p.1 = k then (k, v) :: t else p :: dictSet t k v

def dictGet (d : PDict) (k : String) : Option PVal := (d.find? (fun p => p.1 = k)).map (·.2)

/-- Store into the dict object at address `a`. -/
def hset (h : Heap) (a : Nat) (k : String) (v : PVal) : Heap :=
  h.set a (dictSet (getObj h a) k v)

/-- Python truthiness. -/
def truthy (h : Heap) : PVal → Bool
  | .pynone => false
  | .str s => s ≠ []
  | .bool b => b
  | .num q => decide (q ≠ 0)
  | .list xs => !xs.isEmpty
  | .ref a => !(getObj h a).isEmpty

/-- `'k' in d and d['k']`. -/
def keyTruthy (h : Heap) (d : PDict) (k : String) : Bool :=
  match dictGet d k with
  | some v => truthy h v
  | none => false

/-- `^[a-zA-Z0-9._%+-]+@[a-zA-Z0-9.-]+\.[a-zA-Z]{2,}$` (full match). -/
def vEmailP : P :=
  pSeq (pRep1 emailChar1) (pSeq (pChar (· = '@'))
    (pSeq (pRep1 emailChar2) (pSeq (pChar (· = '.')) (pRepMin Char.isAlpha 2))))

/-- `^(?:\+\d{1,3}[-.\s]?)?\(?\d{3,4}\)?[-.\s]?\d{3,4}[-.\s]?\d{3,4}$` (full match). -/
def vPhoneP : P :=
  pSeq (pOpt (pSeq (pChar (· = '+')) (pSeq (pRep pDigit 1 3) (pOpt (pChar phoneSep)))))
    (pSeq (pOpt (pChar (· = '(')))
      (pSeq (pRep pDigit 3 4)
        (pSeq (pOpt (pChar (· = ')')))
          (pSeq (pOpt (pChar phoneSep))
            (pSeq (pRep pDigit 3 4) (pSeq (pOpt (pChar phoneSep)) (pRep pDigit 3 4)))))))

/-- `re.sub(r'[\s\-\(\)\.]', '', phone)`. -/
def cleanPhone (s : List Char) : List Char :=
  s.filter fun c => !(isWs c || c = '-' || c = '(' || c = ')' || c = '.')

/-- The `name` validity predicate of `validate_personal_info`; a non-string
    value in the field would raise in Python and is unreachable for records
    built by the extractor, so it maps to `false`. -/
def nameFlag (h : Heap) (d : PDict) : Bool :=
  keyTruthy h d "name" &&
    match dictGet d "name" with
    | some (.str s) => decide ((splitWs s).length ≥ 1) && decide (s.length ≥ 3)
    | _ => false

def emailFlag (h : Heap) (d : PDict) : Bool :=
  keyTruthy h d "email" &&
    match dictGet d "email" with
    | some (.str s) => matchesFull vEmailP s
    | _ => false

def phoneFlag (h : Heap) (d : PDict) : Bool :=
  keyTruthy h d "phone" &&
    match dictGet d "phone" with
    | some (.str s) => matchesFull vPhoneP s && decide ((cleanPhone s).length ≥ 7)
    | _ => false

def addressFlag (h : Heap) (d : PDict) : Bool :=
  keyTruthy h d "address" &&
    match dictGet d "address" with
    | some (.str s) => decide (s.length ≥ 10)
    | _ => false

/-- `Validator.validate_personal_info`: copy the dict, then set the four flags. -/
def validate_personal_info (h : Heap) (a : Nat) : Nat × Heap :=
  let d := getObj h a
  let (b, h1) := allocD h d
  let h2 := hset h1 b "name_valid" (.bool (nameFlag h1 d))
  let h3 := hset h2 b "email_valid" (.bool (emailFlag h2 d))
  let h4 := hset h3 b "phone_valid" (.bool (phoneFlag h3 d))
  let h5 := hset h4 b "address_valid" (.bool (addressFlag h4 d))
  (b, h5)

def institutionFlag (h : Heap) (d : PDict) : Bool :=
  keyTruthy h d "institution" &&
    match dictGet d "institution" with
    | some (.str s) => decide (s.length ≥ 3)
    | _ => false

def datesFlag (h : Heap) (d : PDict) : Bool :=
  keyTruthy h d "dates" &&
    match dictGet d "dates" with
    | some (.list xs) => decide (xs.length > 0)
    | _ => false

/-- `Validator.validate_education`; `valid` re-reads `institution_valid` from
    the copy (`validated.get('institution_valid', False)`). -/
def validate_education (h : Heap) (a : Nat) : Nat × Heap :=
  let d := getObj h a
  let (b, h1) := allocD h d
  let h2 := hset h1 b "institution_valid" (.bool (institutionFlag h1 d))
  let h3 := hset h2 b "degree_valid" (.bool (keyTruthy h2 d "degree"))
  let h4 := hset h3 b "dates_valid" (.bool (datesFlag h3 d))
  let h5 := hset h4 b "valid" ((dictGet (getObj h4 b) "institution_valid").getD (.bool false))
  (b, h5)

def companyFlag (h : Heap) (d : PDict) : Bool :=
  keyTruthy h d "company" &&
    match dictGet d "company" with
    | some (.str s) => decide (s.length ≥ 2)
    | _ => false

def responsibilitiesFlag (h : Heap) (d : PDict) : Bool :=
  keyTruthy h d "responsibilities" &&
    match dictGet d "responsibilities" with
    | some (.list xs) => decide (xs.length > 0)
    | _ => false

/-- `Validator.validate_work_experience`. -/
def validate_work_experience (h : Heap) (a : Nat) : Nat × Heap :=
  let d := getObj h a
  let (b, h1) := allocD h d
  let h2 := hset h1 b "company_valid" (.bool (companyFlag h1 d))
  let h3 := hset h2 b "title_valid" (.bool (keyTruthy h2 d "title"))
  let h4 := hset h3 b "dates_valid" (.bool (datesFlag h3 d))
  let h5 := hset h4 b "responsibilities_valid" (.bool (responsibilitiesFlag h4 d))
  let h6 := hset h5 b "valid" ((dictGet (getObj h5 b) "company_valid").getD (.bool false))
  (b, h6)

/-- `Validator.validate_skills`: a new filtered list (non-truthy input gives `[]`;
    a truthy non-list would raise in Python and is unreachable). -/
def validate_skills : PVal → PVal
  | .list xs => .list (xs.filter fun x => match x with | .str s => decide (s.length ≥ 2) | _ => false)
  | _ => .list []

/-- `sum([...])` of the four validity flags read with `.get(_, False)`. -/
def scoreFromFlags (nv ev pv av : Bool) : ℚ :=
  let vf : ℚ := (if nv then 1 else 0) + (if ev then 1 else 0) + (if pv then 1 else 0)
    + (if av then 1 else 0)
  if nv && ev then min 1 (vf / 3) else vf / 4

def getFlag (h : Heap) (d : PDict) (k : String) : Bool :=
  match dictGet d k with
  | some v => truthy h v
  | none => false

/-- `Validator.compute_personal_info_score`; the argument is
    `data.get('personal_info', {})`, so a missing key (modelled `none`) is the
    empty — falsy — dict. -/
def compute_personal_info_score (h : Heap) (v : Option PVal) : ℚ :=
  match v with
  | some (.ref a) =>
    let d := getObj h a
    if d.isEmpty then 0
    else
      scoreFromFlags (getFlag h d "name_valid") (getFlag h d "email_valid")
        (getFlag h d "phone_valid") (getFlag h d "address_valid")
  | _ => 0

def entryValidFlag (h : Heap) : PVal → Bool
  | .ref a => getFlag h (getObj h a) "valid"
  | _ => false

/-- `Validator.compute_education_score`. -/
def compute_education_score (h : Heap) (v : Option PVal) : ℚ :=
  match v with
  | some (.list xs) =>
    if xs.isEmpty then 0 else if xs.any (entryValidFlag h) then 1 else 0
  | _ => 0

/-- `Validator.compute_experience_score`. -/
def compute_experience_score (h : Heap) (v : Option PVal) : ℚ :=
  match v with
  | some (.list xs) =>
    if xs.isEmpty then 0 else if xs.any (entryValidFlag h) then 1 else 0
  | _ => 0

/-- `Validator.compute_skills_score`. -/
def compute_skills_score (v : Option PVal) : ℚ :=
  match v with
  | some (.list xs) =>
    if xs.isEmpty then 0
    else if xs.length ≥ 5 then 1.0
    else if xs.length ≥ 3 then 0.8
    else if xs.length ≥ 1 then 0.5
    else 0.0
  | _ => 0

/-- `Validator.compute_overall_validation_score`. -/
def compute_overall_validation_score (h : Heap) (d : PDict) : ℚ :=
  compute_personal_info_score h (dictGet d "personal_info") * 0.4
    + compute_education_score h (dictGet d "education") * 0.2
    + compute_experience_score h (dictGet d "work_experience") * 0.2
    + compute_skills_score (dictGet d "skills") * 0.2

/-- The left-to-right list comprehension over entry dicts, threading the heap.
    A non-dict entry would raise in Python (unreachable); it is passed through. -/
def vmapEntries (f : Heap → Nat → Nat × Heap) (h : Heap) (xs : List PVal) :
    List PVal × Heap :=
  xs.foldl
    (fun acc x =>
      match x with
      | .ref a =>
        let bh := f acc.2 a
        (acc.1 ++ [.ref bh.1], bh.2)
      | _ => (acc.1 ++ [x], acc.2))
    ([], h)

/-- Stage of `validate_extracted_data`: the `personal_info` field. -/
def vedPersonal (d : PDict) (b : Nat) (h1 : Heap) : Heap :=
  match dictGet d "personal_info" with
  | some (.ref pa) =>
    let ph := validate_personal_info h1 pa
    hset ph.2 b "personal_info" (.ref ph.1)
  | _ => h1

/-- Stage of `validate_extracted_data`: the `education` list. -/
def vedEducation (d : PDict) (b : Nat) (h2 : Heap) : Heap :=
  match dictGet d "education" with
  | some (.list xs) =>
    let yh := vmapEntries validate_education h2 xs
    hset yh.2 b "education" (.list yh.1)
  | _ => h2

/-- Stage of `validate_extracted_data`: the `work_experience` list. -/
def vedWork (d : PDict) (b : Nat) (h3 : Heap) : Heap :=
  match dictGet d "work_experience" with
  | some (.list xs) =>
    let yh := vmapEntries validate_work_experience h3 xs
    hset yh.2 b "work_experience" (.list yh.1)
  | _ => h3

/-- Stage of `validate_extracted_data`: the `skills` list. -/
def vedSkills (d : PDict) (b : Nat) (h4 : Heap) : Heap :=
  match dictGet d "skills" with
  | some v => hset h4 b "skills" (validate_skills v)
  | none => h4

/-- The `validation` score dict attached at the end of `validate_extracted_data`. -/
def vedScores (h5 : Heap) (b : Nat) : PDict :=
  let vd := getObj h5 b
  [("overall_score", .num (compute_overall_validation_score h5 vd)),
   ("personal_info_score", .num (compute_personal_info_score h5 (dictGet vd "personal_info"))),
   ("education_score", .num (compute_education_score h5 (dictGet vd "education"))),
   ("experience_score", .num (compute_experience_score h5 (dictGet vd "work_experience"))),
   ("skills_score", .num (compute_skills_score (dictGet vd "skills")))]

/-- `Validator.validate_extracted_data`. -/
def validate_extracted_data (h : Heap) (a : Nat) : Nat × Heap :=
  let d := getObj h a
  let bh1 := allocD h d
  let b := bh1.1
  let h5 := vedSkills d b (vedWork d b (vedEducation d b (vedPersonal d b bh1.2)))
  let vh := allocD h5 (vedScores h5 b)
  (b, hset vh.2 b "validation" (.ref vh.1))

/-- Reads a validity flag the way the score computations do: through a heap
    reference, defaulting to `False`. -/
def scoreFlag (h : Heap) (v : Option PVal) (k : String) : Bool :=
  match v with
  | some (.ref a) => getFlag h (getObj h a) k
  | _ => false

/-! ## Auxiliary definitions used by the theorems and their witnesses -/

/-- The four decimal digits of a year `1000 ≤ y ≤ 9999`. -/
def pad4 (n : Nat) : List Char :=
  [Nat.digitChar (n / 1000 % 10), Nat.digitChar (n / 100 % 10),
   Nat.digitChar (n / 10 % 10), Nat.digitChar (n % 10)]

/-- An ISO-form date string `YYYY-MM-DD`. -/
def isoFmt (y m d : Nat) : List Char := pad4 y ++ '-' :: fmt02 m ++ '-' :: fmt02 d

/-- Heap extension: the heap has only grown, and the first `n` cells of the
    original heap are unchanged. -/
def Ext (n : Nat) (h h' : Heap) : Prop :=
  h.length ≤ h'.length ∧ n ≤ h'.length ∧ ∀ i, i < n → h'[i]? = h[i]?

/-- A document whose single sentence mentions languages (concrete failing input
    for the `'ind'` `KeyError`). -/
def docIndCrash : SpacyDoc :=
  ⟨"language English".toList, [⟨"language English".toList, [], []⟩], []⟩

/-- The degenerate document: no text, no sentences, no entities. -/
def docEmpty : SpacyDoc := ⟨[], [], []⟩

/-- Concrete validator heap used by witnesses: a record at address 0 whose
    personal info, education entry and work entry live at addresses 1–3. -/
def piDict : PDict :=
  [("name", .str "Jane Roe".toList), ("email", .str "jane@x.co".toList),
   ("phone", .pynone), ("address", .pynone)]

def eduDict : PDict :=
  [("institution", .str "MIT".toList), ("degree", .pynone), ("field", .pynone),
   ("dates", .list [.str "2019".toList])]

def workDict : PDict :=
  [("company", .str "ACME".toList), ("title", .pynone), ("dates", .pynone),
   ("responsibilities", .list [])]

def recDict : PDict :=
  [("personal_info", .ref 1), ("skills", .list [.str "Python".toList, .str "C".toList]),
   ("education", .list [.ref 2]), ("work_experience", .list [.ref 3])]

def heapRec : Heap := [recDict, piDict, eduDict, workDict]

/-- Heap with an all-defaults personal-info dict at 0 and an email-only one at 1. -/
def heapC7 : Heap := [[], [("email_valid", .bool true)]]

/-! ## Helper lemmas -/

/-- The separator scan of `extract_date_range` is the first consecutive pair of
    spans with a separator strictly between them. -/
theorem findSepPair_eq (text : List Char) (l : List DateSpan) :
    findSepPair text l
      = (l.zip l.tail).find? (fun ab => hasSep (slice text ab.1.endPos ab.2.startPos)) := by
  induction l with
  | nil => rfl
  | cons a t IH =>
    cases t with
    | nil => rfl
    | cons b t' =>
      show (if hasSep (slice text a.endPos b.startPos) then some (a, b)
            else findSepPair text (b :: t')) = _
      cases h : hasSep (slice text a.endPos b.startPos) with
      | true => simp [List.find?, h]
      | false => simp [List.find?, h]; exact IH

theorem sortInsert_perm (x : DateSpan) (l : List DateSpan) :
    (sortInsert x l).Perm (x :: l) := by
  induction l with
  | nil => exact List.Perm.refl _
  | cons y t IH =>
    rw [sortInsert]
    split
    · exact (IH.cons y).trans (List.Perm.swap x y t)
    · exact List.Perm.refl _

theorem foldl_sortInsert_perm (l acc : List DateSpan) :
    (l.foldl (fun a x => sortInsert x a) acc).Perm (acc ++ l) := by
  induction l generalizing acc with
  | nil => simp
  | cons x t IH =>
    exact (IH (sortInsert x acc)).trans
      (((sortInsert_perm x acc).append_right t).trans List.perm_middle.symm)

theorem sortByPos_perm (l : List DateSpan) : (sortByPos l).Perm l := by
  simpa using foldl_sortInsert_perm l []

theorem sortInsert_pairwise (x : DateSpan) (l : List DateSpan)
    (hl : l.Pairwise (fun a b => a.startPos ≤ b.startPos)) :
    (sortInsert x l).Pairwise (fun a b => a.startPos ≤ b.startPos) := by
  induction l with
  | nil => simp [sortInsert]
  | cons y t IH =>
    rw [List.pairwise_cons] at hl
    by_cases h : y.startPos ≤ x.startPos
    · rw [sortInsert, if_pos h]
      refine List.Pairwise.cons ?_ (IH hl.2)
      intro z hz
      rcases List.mem_cons.mp ((sortInsert_perm x t).mem_iff.mp hz) with rfl | hm
      · exact h
      · exact hl.1 z hm
    · rw [sortInsert, if_neg h]
      refine List.Pairwise.cons ?_ (List.pairwise_cons.mpr hl)
      intro z hz
      rcases List.mem_cons.mp hz with rfl | hm
      · omega
      · have := hl.1 z hm
        omega

theorem sortByPos_pairwise (l : List DateSpan) :
    (sortByPos l).Pairwise (fun a b => a.startPos ≤ b.startPos) := by
  have key : ∀ (l acc : List DateSpan),
      acc.Pairwise (fun a b => a.startPos ≤ b.startPos) →
      (l.foldl (fun a x => sortInsert x a) acc).Pairwise (fun a b => a.startPos ≤ b.startPos) := by
    intro l
    induction l with
    | nil => intro acc h; exact h
    | cons x t IH => intro acc h; exact IH _ (sortInsert_pairwise x acc h)
  exact key l [] (List.Pairwise.nil)

theorem mem_updAssoc {l : List (List Char × SkillMatch)} {m : SkillMatch}
    {q : List Char × SkillMatch} (hq : q ∈ updAssoc l m) : q ∈ l ∨ q.2 = m := by
  unfold updAssoc at hq
  split at hq
  · rcases List.mem_map.mp hq with ⟨p, hp, hfp⟩
    by_cases hc : (p.1 = m.skill && m.confidence > p.2.confidence) = true
    · rw [if_pos hc] at hfp
      right; rw [← hfp]
    · rw [if_neg hc] at hfp
      left; rw [← hfp]; exact hp
  · rcases List.mem_append.mp hq with h | h
    · exact Or.inl h
    · right
      rcases List.mem_singleton.mp h with rfl
      rfl

theorem mem_foldl_updAssoc {l : List SkillMatch} {acc : List (List Char × SkillMatch)}
    {q : List Char × SkillMatch} (hq : q ∈ l.foldl updAssoc acc) :
    q ∈ acc ∨ q.2 ∈ l := by
  induction l generalizing acc with
  | nil => exact Or.inl hq
  | cons m t IH =>
    rcases @IH (updAssoc acc m) hq with h | h
    · rcases mem_updAssoc h with h' | h'
      · exact Or.inl h'
      · exact Or.inr (h' ▸ List.mem_cons_self m t)
    · exact Or.inr (List.mem_cons_of_mem m h)

theorem mem_dedupBest {l : List SkillMatch} {x : SkillMatch} (hx : x ∈ dedupBest l) :
    x ∈ l := by
  rcases List.mem_map.mp hx with ⟨q, hq, rfl⟩
  rcases mem_foldl_updAssoc hq with h | h
  · exact absurd h (List.not_mem_nil q)
  · exact h

theorem bestMatch_aux (l : List (List Char)) (score : List Char → List Char → ℚ)
    (ph : List Char) (acc : Option (List Char × ℚ)) (sv : List Char × ℚ)
    (h : l.foldl
        (fun acc s =>
          match acc with
          | none => some (s, score ph s)
          | some sv => if score ph s > sv.2 then some (s, score ph s) else acc)
        acc = some sv) :
    acc = some sv ∨ sv.1 ∈ l := by
  induction l generalizing acc with
  | nil => exact Or.inl h
  | cons s t IH =>
    rcases IH _ h with h' | h'
    · cases acc with
      | none =>
        injection h' with he
        right
        rw [← he]
        exact List.mem_cons_self s t
      | some sv0 =>
        dsimp only at h'
        split at h'
        · injection h' with he
          right
          rw [← he]
          exact List.mem_cons_self s t
        · exact Or.inl h'
    · exact Or.inr (List.mem_cons_of_mem s h')

theorem filter_map_key {s : List Char} {f : List Char × SkillMatch → List Char × SkillMatch}
    (hf : ∀ p, (f p).1 = p.1) (acc : List (List Char × SkillMatch)) :
    (acc.map f).filter (fun p => p.1 = s) = (acc.filter (fun p => p.1 = s)).map f := by
  induction acc with
  | nil => rfl
  | cons p t IH =>
    simp only [List.map_cons, List.filter_cons, hf p]
    by_cases hp : p.1 = s
    · simp [hp, IH]
    · simp [hp, IH]

theorem updAssoc_keyInv {s : List Char} {e : SkillMatch} (m : SkillMatch)
    (hm : m.skill = s → m = e) (acc : List (List Char × SkillMatch))
    (hP : acc.filter (fun p => p.1 = s) = [] ∨ acc.filter (fun p => p.1 = s) = [(s, e)]) :
    (updAssoc acc m).filter (fun p => p.1 = s) = []
      ∨ (updAssoc acc m).filter (fun p => p.1 = s) = [(s, e)] := by
  unfold updAssoc
  have hf : ∀ p : List Char × SkillMatch,
      ((if (p.1 = m.skill && m.confidence > p.2.confidence) = true then (p.1, m) else p)).1
        = p.1 := by
    intro p; split <;> rfl
  by_cases hk : m.skill = s
  · have hme : m = e := hm hk
    have hes : e.skill = s := by rw [← hme]; exact hk
    by_cases hany : (acc.any fun p => p.1 = m.skill) = true
    · rw [if_pos hany, filter_map_key hf]
      rcases hP with h | h
      · rw [h]; exact Or.inl rfl
      · rw [h]
        right
        simp only [List.map_cons, List.map_nil]
        have hc : (((s, e) : List Char × SkillMatch).1 = m.skill
            && m.confidence > ((s, e) : List Char × SkillMatch).2.confidence) = false := by
          rw [hme]
          simp [lt_irrefl]
        rw [hc]
        simp
    · rw [if_neg hany]
      have hnil : acc.filter (fun p => p.1 = s) = [] := by
        rw [List.filter_eq_nil_iff]
        intro p hp hps
        exact hany (List.any_eq_true.mpr
          ⟨p, hp, decide_eq_true (by rw [hk]; exact of_decide_eq_true hps)⟩)
      rw [List.filter_append, hnil]
      right
      rw [hme]
      have : ((e.skill, e) : List Char × SkillMatch) = (s, e) := by rw [hes]
      rw [this]
      simp
  · by_cases hany : (acc.any fun p => p.1 = m.skill) = true
    · rw [if_pos hany, filter_map_key hf]
      rcases hP with h | h
      · rw [h]; exact Or.inl rfl
      · rw [h]
        right
        simp only [List.map_cons, List.map_nil]
        have hc : (((s, e) : List Char × SkillMatch).1 = m.skill
            && m.confidence > ((s, e) : List Char × SkillMatch).2.confidence) = false := by
          simp only [Bool.and_eq_false_iff]
          exact Or.inl (decide_eq_false fun h => hk h.symm)
        rw [hc]
        simp
    · rw [if_neg hany, List.filter_append]
      have h1 : ([(m.skill, m)].filter (fun p => p.1 = s)) = [] := by simp [hk]
      rw [h1, List.append_nil]
      exact hP

theorem foldl_updAssoc_keyInv {s : List Char} {e : SkillMatch} (l : List SkillMatch)
    (hl : ∀ m ∈ l, m.skill = s → m = e) (acc : List (List Char × SkillMatch))
    (hP : acc.filter (fun p => p.1 = s) = [] ∨ acc.filter (fun p => p.1 = s) = [(s, e)]) :
    (l.foldl updAssoc acc).filter (fun p => p.1 = s) = []
      ∨ (l.foldl updAssoc acc).filter (fun p => p.1 = s) = [(s, e)] := by
  induction l generalizing acc with
  | nil => exact hP
  | cons m t IH =>
    exact IH (fun m' hm' => hl m' (List.mem_cons_of_mem m hm'))
      (updAssoc acc m) (updAssoc_keyInv m (hl m (List.mem_cons_self m t)) acc hP)

theorem updAssoc_keyPresent {s : List Char} (m : SkillMatch)
    (acc : List (List Char × SkillMatch))
    (h : (acc.any fun p => p.1 = s) = true ∨ m.skill = s) :
    ((updAssoc acc m).any fun p => p.1 = s) = true := by
  unfold updAssoc
  by_cases hany : (acc.any fun p => p.1 = m.skill) = true
  · rw [if_pos hany]
    rcases h with h | h
    · rcases List.any_eq_true.mp h with ⟨p, hp, hps⟩
      refine List.any_eq_true.mpr ⟨_, List.mem_map_of_mem _ hp, ?_⟩
      have := congrArg (fun q => decide (q = s))
        ((fun p : List Char × SkillMatch =>
          show ((if (p.1 = m.skill && m.confidence > p.2.confidence) = true
                  then (p.1, m) else p)).1 = p.1 by split <;> rfl) p)
      dsimp at this
      rw [this]
      exact hps
    · rcases List.any_eq_true.mp hany with ⟨p, hp, hps⟩
      refine List.any_eq_true.mpr ⟨_, List.mem_map_of_mem _ hp, ?_⟩
      have heq : ((if (p.1 = m.skill && m.confidence > p.2.confidence) = true
          then (p.1, m) else p)).1 = p.1 := by split <;> rfl
      rw [show (decide (((if (p.1 = m.skill && m.confidence > p.2.confidence) = true
          then (p.1, m) else p)).1 = s)) = decide (p.1 = s) by rw [heq]]
      exact decide_eq_true (by
        have := of_decide_eq_true hps
        rw [this, h])
  · rw [if_neg hany]
    rcases h with h | h
    · rcases List.any_eq_true.mp h with ⟨p, hp, hps⟩
      exact List.any_eq_true.mpr ⟨p, List.mem_append_left _ hp, hps⟩
    · exact List.any_eq_true.mpr
        ⟨(m.skill, m), List.mem_append_right _ (List.mem_singleton.mpr rfl),
          decide_eq_true h⟩

theorem foldl_updAssoc_keyPresent {s : List Char} (l : List SkillMatch)
    (acc : List (List Char × SkillMatch))
    (h : (∃ m ∈ l, m.skill = s) ∨ (acc.any fun p => p.1 = s) = true) :
    ((l.foldl updAssoc acc).any fun p => p.1 = s) = true := by
  induction l generalizing acc with
  | nil =>
    rcases h with ⟨m, hm, _⟩ | h
    · exact absurd hm (List.not_mem_nil m)
    · exact h
  | cons m t IH =>
    rcases h with ⟨m', hm', hs'⟩ | h
    · rcases List.mem_cons.mp hm' with rfl | hm'
      · exact IH (updAssoc acc m') (Or.inr (updAssoc_keyPresent m' acc (Or.inr hs')))
      · exact IH (updAssoc acc m) (Or.inl ⟨m', hm', hs'⟩)
    · exact IH (updAssoc acc m) (Or.inr (updAssoc_keyPresent m acc (Or.inl h)))

theorem updAssoc_pairSkill (m : SkillMatch) (acc : List (List Char × SkillMatch))
    (hacc : ∀ p ∈ acc, p.1 = p.2.skill) :
    ∀ p ∈ updAssoc acc m, p.1 = p.2.skill := by
  unfold updAssoc
  by_cases hany : (acc.any fun p => p.1 = m.skill) = true
  · rw [if_pos hany]
    intro p hp
    rcases List.mem_map.mp hp with ⟨q, hq, hfq⟩
    by_cases hc : (q.1 = m.skill && m.confidence > q.2.confidence) = true
    · rw [if_pos hc] at hfq
      rw [← hfq]
      have hc' := hc
      simp only [Bool.and_eq_true] at hc'
      exact of_decide_eq_true hc'.1
    · rw [if_neg hc] at hfq
      rw [← hfq]
      exact hacc q hq
  · rw [if_neg hany]
    intro p hp
    rcases List.mem_append.mp hp with hp | hp
    · exact hacc p hp
    · rcases List.mem_singleton.mp hp with rfl
      rfl

theorem foldl_updAssoc_pairSkill (l : List SkillMatch) (acc : List (List Char × SkillMatch))
    (hacc : ∀ p ∈ acc, p.1 = p.2.skill) :
    ∀ p ∈ l.foldl updAssoc acc, p.1 = p.2.skill := by
  induction l generalizing acc with
  | nil => exact hacc
  | cons m t IH => exact IH (updAssoc acc m) (updAssoc_pairSkill m acc hacc)

theorem dedupBest_unique (s : List Char) (e : SkillMatch) (l : List SkillMatch)
    (hse : e.skill = s) (hall : ∀ m ∈ l, m.skill = s → m = e) (hel : e ∈ l) :
    (dedupBest l).countP (fun m => m.skill = s) = 1 ∧ e ∈ dedupBest l := by
  have hA := foldl_updAssoc_keyInv l hall [] (Or.inl rfl)
  have hPres := foldl_updAssoc_keyPresent l [] (Or.inl ⟨e, hel, hse⟩)
  have hsk := foldl_updAssoc_pairSkill l [] (by intro p hp; exact absurd hp (List.not_mem_nil p))
  rcases hA with h | h
  · rcases List.any_eq_true.mp hPres with ⟨p, hp, hps⟩
    have : p ∈ (l.foldl updAssoc []).filter (fun p => p.1 = s) := List.mem_filter.mpr ⟨hp, hps⟩
    rw [h] at this
    exact absurd this (List.not_mem_nil p)
  · constructor
    · show ((l.foldl updAssoc []).map (fun p => p.2)).countP (fun m => decide (m.skill = s)) = 1
      rw [List.countP_map]
      have hcg : ∀ p ∈ l.foldl updAssoc [],
          ((fun m => decide (m.skill = s)) ∘ (fun p : List Char × SkillMatch => p.2)) p = true
            ↔ (fun p : List Char × SkillMatch => decide (p.1 = s)) p = true := by
        intro p hp
        simp only [Function.comp]
        rw [hsk p hp]
      rw [List.countP_congr hcg, List.countP_eq_length_filter, h]
      rfl
    · have : ((s, e) : List Char × SkillMatch) ∈ (l.foldl updAssoc []).filter
          (fun p => p.1 = s) := by rw [h]; exact List.mem_singleton.mpr rfl
      exact List.mem_map.mpr ⟨(s, e), List.mem_of_mem_filter this, rfl⟩

theorem extract_skills_exact_unique (score : List Char → List Char → ℚ) (θ : ℚ)
    (se si : List (List Char)) (text : List Char) (lang : String) (s : List Char)
    (hs : s ∈ (if lang = "ind" then si else se))
    (hinf : listInfix (lower s) (lower text) = true)
    (htext : text ≠ []) (hlang : lang = "eng" ∨ lang = "ind") :
    (extract_skills score θ se si text lang).countP (fun m => m.skill = s) = 1
      ∧ (⟨s, 1, .exact⟩ : SkillMatch) ∈ extract_skills score θ se si text lang := by
  have hskills : (if lang = "ind" then si else se) ≠ [] := List.ne_nil_of_mem hs
  have hc1 : (decide (text = []) || (decide (lang ≠ "eng") && decide (lang ≠ "ind"))) = false := by
    rcases hlang with rfl | rfl <;> simp [htext]
  simp only [extract_skills, hc1, Bool.false_eq_true, if_false, if_neg hskills]
  set L := (if lang = "ind" then si else se) with hL
  have heE : (⟨s, 1, .exact⟩ : SkillMatch) ∈ List.filterMap
      (fun s => if listInfix (lower s) (lower text) = true
        then some (⟨s, 1, .exact⟩ : SkillMatch) else none) L :=
    List.mem_filterMap.mpr ⟨s, hs, by rw [if_pos hinf]⟩
  refine dedupBest_unique s ⟨s, 1, .exact⟩ _ rfl ?_ ?_
  · intro m hm hms
    rcases List.mem_append.mp hm with he | hf
    · rcases List.mem_filterMap.mp he with ⟨s', _, hcond⟩
      split at hcond
      · injection hcond with he'
        rw [← he'] at hms ⊢
        simp only at hms
        rw [hms]
      · exact absurd hcond (by simp)
    · rcases List.mem_filterMap.mp hf with ⟨ph, _, hcond⟩
      split at hcond
      · exact absurd hcond (by simp)
      · split at hcond
        · split at hcond
          · split at hcond
            · exact absurd hcond (by simp)
            · injection hcond with he'
              exfalso
              rename_i sv hbm hθ hnotany
              apply hnotany
              refine List.any_eq_true.mpr ⟨⟨s, 1, .exact⟩, heE, decide_eq_true ?_⟩
              show s = sv.1
              rw [← he'] at hms
              simp only at hms
              rw [← hms]
          · exact absurd hcond (by simp)
        · exact absurd hcond (by simp)
  · exact List.mem_append_left _ heE

theorem extract_skills_skill_mem (score : List Char → List Char → ℚ) (θ : ℚ)
    (se si : List (List Char)) (text : List Char) (lang : String) (m : SkillMatch)
    (hm : m ∈ extract_skills score θ se si text lang) :
    m.skill ∈ (if lang = "ind" then si else se) := by
  simp only [extract_skills] at hm
  set L := (if lang = "ind" then si else se) with hL
  split at hm
  · exact absurd hm (List.not_mem_nil m)
  · split at hm
    · exact absurd hm (List.not_mem_nil m)
    · rcases List.mem_append.mp (mem_dedupBest hm) with he | hf
      · rcases List.mem_filterMap.mp he with ⟨s', hs', hcond⟩
        split at hcond
        · injection hcond with he'
          rw [← he']
          exact hs'
        · exact absurd hcond (by simp)
      · rcases List.mem_filterMap.mp hf with ⟨ph, _, hcond⟩
        split at hcond
        · exact absurd hcond (by simp)
        · split at hcond
          · split at hcond
            · split at hcond
              · exact absurd hcond (by simp)
              · injection hcond with he'
                rw [← he']
                rename_i sv hbm hθ hnotany
                rcases bestMatch_aux _ score ph none sv hbm with h | h
                · exact absurd h (by simp)
                · exact h
            · exact absurd hcond (by simp)
          · exact absurd hcond (by simp)

theorem scoreFromFlags_bounds (nv ev pv av : Bool) :
    0 ≤ scoreFromFlags nv ev pv av ∧ scoreFromFlags nv ev pv av ≤ 1 := by
  cases nv <;> cases ev <;> cases pv <;> cases av <;>
    simp [scoreFromFlags, min_def] <;> norm_num

theorem compute_personal_info_score_bounds (h : Heap) (v : Option PVal) :
    0 ≤ compute_personal_info_score h v ∧ compute_personal_info_score h v ≤ 1 := by
  simp only [compute_personal_info_score]
  split
  · split
    · norm_num
    · exact scoreFromFlags_bounds _ _ _ _
  · norm_num

theorem compute_education_score_bounds (h : Heap) (v : Option PVal) :
    0 ≤ compute_education_score h v ∧ compute_education_score h v ≤ 1 := by
  unfold compute_education_score
  split <;> [skip; norm_num]
  split <;> [norm_num; skip]
  split <;> norm_num

theorem compute_experience_score_bounds (h : Heap) (v : Option PVal) :
    0 ≤ compute_experience_score h v ∧ compute_experience_score h v ≤ 1 := by
  unfold compute_experience_score
  split <;> [skip; norm_num]
  split <;> [norm_num; skip]
  split <;> norm_num

theorem compute_skills_score_bounds (v : Option PVal) :
    0 ≤ compute_skills_score v ∧ compute_skills_score v ≤ 1 := by
  unfold compute_skills_score
  split <;> [skip; norm_num]
  split <;> [norm_num; skip]
  split <;> [norm_num; skip]
  split <;> [norm_num; skip]
  split <;> norm_num

theorem calculate_overall_confidence_bounds (pi : PersonalInfo) (sk : List (List Char))
    (ed : List EduEntry) (we : List WorkEntry) :
    0 ≤ calculate_overall_confidence pi sk ed we
      ∧ calculate_overall_confidence pi sk ed we ≤ 1 := by
  unfold calculate_overall_confidence
  split <;> [norm_num; skip]
  split <;> [norm_num; skip]
  split <;> norm_num

theorem ext_refl (n : Nat) (h : Heap) (hn : n ≤ h.length) : Ext n h h :=
  ⟨le_rfl, hn, fun _ _ => rfl⟩

theorem ext_trans {n : Nat} {h h1 h2 : Heap} (e1 : Ext n h h1) (e2 : Ext n h1 h2) :
    Ext n h h2 :=
  ⟨e1.1.trans e2.1, e2.2.1, fun i hi => (e2.2.2 i hi).trans (e1.2.2 i hi)⟩

theorem ext_alloc (n : Nat) (h : Heap) (d : PDict) (hn : n ≤ h.length) :
    Ext n h (h ++ [d]) := by
  refine ⟨by simp, by simp; omega, fun i hi => ?_⟩
  rw [List.getElem?_append, if_pos (by omega)]

theorem ext_hset {n : Nat} {h : Heap} (h1 : Heap) (b : Nat) (k : String) (v : PVal)
    (hE : Ext n h h1) (hb : n ≤ b) : Ext n h (hset h1 b k v) := by
  refine ⟨?_, ?_, fun i hi => ?_⟩
  · unfold hset; rw [List.length_set]; exact hE.1
  · unfold hset; rw [List.length_set]; exact hE.2.1
  · unfold hset
    rw [List.getElem?_set_ne (by omega : b ≠ i)]
    exact hE.2.2 i hi

theorem validate_personal_info_ext (n : Nat) (h : Heap) (a : Nat) (hn : n ≤ h.length) :
    Ext n h (validate_personal_info h a).2 := by
  unfold validate_personal_info allocD
  dsimp only
  exact ext_hset _ _ _ _ (ext_hset _ _ _ _ (ext_hset _ _ _ _ (ext_hset _ _ _ _
    (ext_alloc n h _ hn) hn) hn) hn) hn

theorem validate_education_ext (n : Nat) (h : Heap) (a : Nat) (hn : n ≤ h.length) :
    Ext n h (validate_education h a).2 := by
  unfold validate_education allocD
  dsimp only
  exact ext_hset _ _ _ _ (ext_hset _ _ _ _ (ext_hset _ _ _ _ (ext_hset _ _ _ _
    (ext_alloc n h _ hn) hn) hn) hn) hn

theorem validate_work_experience_ext (n : Nat) (h : Heap) (a : Nat) (hn : n ≤ h.length) :
    Ext n h (validate_work_experience h a).2 := by
  unfold validate_work_experience allocD
  dsimp only
  exact ext_hset _ _ _ _ (ext_hset _ _ _ _ (ext_hset _ _ _ _ (ext_hset _ _ _ _
    (ext_hset _ _ _ _ (ext_alloc n h _ hn) hn) hn) hn) hn) hn

theorem vmapEntries_ext_aux (n : Nat) (f : Heap → Nat → Nat × Heap)
    (hf : ∀ (h' : Heap) (a : Nat), n ≤ h'.length → Ext n h' (f h' a).2) :
    ∀ (xs : List PVal) (acc0 : List PVal) (h : Heap), n ≤ h.length →
      Ext n h (xs.foldl
        (fun acc x =>
          match x with
          | .ref a =>
            let bh := f acc.2 a
            (acc.1 ++ [.ref bh.1], bh.2)
          | _ => (acc.1 ++ [x], acc.2))
        (acc0, h)).2 := by
  intro xs
  induction xs with
  | nil => intro acc0 h hn; exact ext_refl n h hn
  | cons x t IH =>
    intro acc0 h hn
    rw [List.foldl_cons]
    cases x <;>
      first
      | exact IH _ _ hn
      | (rename_i a
         exact ext_trans (hf h a hn) (IH _ _ (hf h a hn).2.1))

theorem vmapEntries_ext (n : Nat) (f : Heap → Nat → Nat × Heap)
    (hf : ∀ (h' : Heap) (a : Nat), n ≤ h'.length → Ext n h' (f h' a).2)
    (h : Heap) (xs : List PVal) (hn : n ≤ h.length) :
    Ext n h (vmapEntries f h xs).2 :=
  vmapEntries_ext_aux n f hf xs [] h hn

theorem vedPersonal_ext (n : Nat) (d : PDict) (b : Nat) (h1 : Heap)
    (hn : n ≤ h1.length) (hb : n ≤ b) : Ext n h1 (vedPersonal d b h1) := by
  unfold vedPersonal
  split
  all_goals
    first
    | exact ext_refl n h1 hn
    | (rename_i pa heq
       exact ext_hset _ _ _ _ (validate_personal_info_ext n h1 pa hn) hb)

theorem vedEducation_ext (n : Nat) (d : PDict) (b : Nat) (h1 : Heap)
    (hn : n ≤ h1.length) (hb : n ≤ b) : Ext n h1 (vedEducation d b h1) := by
  unfold vedEducation
  split
  all_goals
    first
    | exact ext_refl n h1 hn
    | (rename_i xs heq
       exact ext_hset _ _ _ _
         (vmapEntries_ext n validate_education
           (fun h' a hn' => validate_education_ext n h' a hn') h1 xs hn) hb)

theorem vedWork_ext (n : Nat) (d : PDict) (b : Nat) (h1 : Heap)
    (hn : n ≤ h1.length) (hb : n ≤ b) : Ext n h1 (vedWork d b h1) := by
  unfold vedWork
  split
  all_goals
    first
    | exact ext_refl n h1 hn
    | (rename_i xs heq
       exact ext_hset _ _ _ _
         (vmapEntries_ext n validate_work_experience
           (fun h' a hn' => validate_work_experience_ext n h' a hn') h1 xs hn) hb)

theorem vedSkills_ext (n : Nat) (d : PDict) (b : Nat) (h1 : Heap)
    (hn : n ≤ h1.length) (hb : n ≤ b) : Ext n h1 (vedSkills d b h1) := by
  unfold vedSkills
  split
  all_goals
    first
    | exact ext_refl n h1 hn
    | (rename_i v
       exact ext_hset _ _ _ _ (ext_refl n h1 hn) hb)

theorem dictGet_dictSet_self (d : PDict) (k : String) (v : PVal) :
    dictGet (dictSet d k v) k = some v := by
  induction d with
  | nil => simp [dictSet, dictGet, List.find?]
  | cons p t IH =>
    by_cases hp : p.1 = k
    · rw [dictSet, if_pos hp]
      simp [dictGet, List.find?]
    · rw [dictSet, if_neg hp]
      simp only [dictGet, List.find?]
      rw [show (decide (p.1 = k)) = false from decide_eq_false hp]
      exact IH

theorem getObj_hset_self (h : Heap) (a : Nat) (k : String) (v : PVal)
    (ha : a < h.length) : getObj (hset h a k v) a = dictSet (getObj h a) k v := by
  unfold getObj hset
  rw [List.getD_eq_getElem?_getD, List.getElem?_set_self ha]
  rfl

theorem getObj_hset_ne (h : Heap) (a b : Nat) (k : String) (v : PVal)
    (hab : a ≠ b) : getObj (hset h a k v) b = getObj h b := by
  unfold getObj hset
  rw [List.getD_eq_getElem?_getD, List.getD_eq_getElem?_getD,
    List.getElem?_set_ne hab]

theorem getObj_append_self (h : Heap) (d : PDict) : getObj (h ++ [d]) h.length = d := by
  unfold getObj
  rw [List.getD_eq_getElem?_getD, List.getElem?_append_right le_rfl]
  simp

theorem digitChar_isDigit (k : Nat) : (Nat.digitChar (k % 10)).isDigit = true := by
  have h : k % 10 < 10 := Nat.mod_lt _ (by norm_num)
  interval_cases h' : k % 10 <;> decide

theorem digitChar_isAlpha (k : Nat) : (Nat.digitChar (k % 10)).isAlpha = false := by
  have h : k % 10 < 10 := Nat.mod_lt _ (by norm_num)
  interval_cases h' : k % 10 <;> decide

theorem digitChar_isWs (k : Nat) : isWs (Nat.digitChar (k % 10)) = false := by
  have h : k % 10 < 10 := Nat.mod_lt _ (by norm_num)
  interval_cases h' : k % 10 <;> decide

theorem digitChar_toLower (k : Nat) :
    (Nat.digitChar (k % 10)).toLower = Nat.digitChar (k % 10) := by
  have h : k % 10 < 10 := Nat.mod_lt _ (by norm_num)
  interval_cases h' : k % 10 <;> decide

theorem digitChar_dashSlash (k : Nat) : dashSlash (Nat.digitChar (k % 10)) = false := by
  have h : k % 10 < 10 := Nat.mod_lt _ (by norm_num)
  interval_cases h' : k % 10 <;> decide

theorem digitChar_toNat (k : Nat) : (Nat.digitChar (k % 10)).toNat = 48 + k % 10 := by
  have h : k % 10 < 10 := Nat.mod_lt _ (by norm_num)
  interval_cases h' : k % 10 <;> decide

theorem isoFmt_alpha_false (y m d : Nat) : ∀ c ∈ isoFmt y m d, c.isAlpha = false := by
  intro c hc
  simp only [isoFmt, pad4, fmt02, List.cons_append, List.nil_append, List.mem_cons,
    List.not_mem_nil, or_false] at hc
  rcases hc with rfl | rfl | rfl | rfl | rfl | rfl | rfl | rfl | rfl | rfl <;>
    first
    | exact digitChar_isAlpha _
    | decide

theorem isoFmt_ws_false (y m d : Nat) : ∀ c ∈ isoFmt y m d, isWs c = false := by
  intro c hc
  simp only [isoFmt, pad4, fmt02, List.cons_append, List.nil_append, List.mem_cons,
    List.not_mem_nil, or_false] at hc
  rcases hc with rfl | rfl | rfl | rfl | rfl | rfl | rfl | rfl | rfl | rfl <;>
    first
    | exact digitChar_isWs _
    | decide

theorem lower_isoFmt (y m d : Nat) : lower (isoFmt y m d) = isoFmt y m d := by
  simp only [isoFmt, pad4, fmt02, lower, List.cons_append, List.nil_append, List.map_cons,
    List.map_nil, digitChar_toLower, show '-'.toLower = '-' from rfl]

theorem length_isoFmt (y m d : Nat) : (isoFmt y m d).length = 10 := by
  simp [isoFmt, pad4, fmt02]

theorem dropWhile_eq_self_of_ws (s : List Char) (h : ∀ c ∈ s, isWs c = false) :
    s.dropWhile isWs = s := by
  cases s with
  | nil => rfl
  | cons c t =>
    rw [List.dropWhile_cons, h c (List.mem_cons_self c t)]
    simp

theorem strip_isoFmt (y m d : Nat) : strip (isoFmt y m d) = isoFmt y m d := by
  unfold strip
  rw [dropWhile_eq_self_of_ws _ (isoFmt_ws_false y m d),
    dropWhile_eq_self_of_ws _ (by
      intro c hc
      exact isoFmt_ws_false y m d c (List.mem_reverse.mp hc)),
    List.reverse_reverse]

theorem listInfix_subset {needle hay : List Char} (h : listInfix needle hay = true) :
    ∀ c ∈ needle, c ∈ hay := by
  induction hay with
  | nil =>
    intro c hc
    rw [listInfix] at h
    simp only [Bool.or_false] at h
    rw [List.isPrefixOf_iff_prefix] at h
    rw [List.prefix_nil.mp h] at hc
    exact absurd hc (List.not_mem_nil c)
  | cons x t IH =>
    intro c hc
    rw [listInfix] at h
    rcases Bool.or_eq_true_iff.mp h with h' | h'
    · exact (List.isPrefixOf_iff_prefix.mp h').subset hc
    · exact List.mem_cons_of_mem x (IH h' c hc)

theorem listInfix_eq_false_alpha (needle hay : List Char)
    (hhay : ∀ c ∈ hay, c.isAlpha = false)
    (hneedle : needle.any (fun c => c.isAlpha) = true) : listInfix needle hay = false := by
  cases hifx : listInfix needle hay with
  | false => rfl
  | true =>
    rcases List.any_eq_true.mp hneedle with ⟨c, hcn, hca⟩
    rw [hhay c (listInfix_subset hifx c hcn)] at hca
    exact absurd hca (by simp)

theorem is_present_isoFmt (lang : String) (y m d : Nat) :
    is_present_indicator lang (isoFmt y m d) = false := by
  unfold is_present_indicator
  rw [List.any_eq_false]
  intro ind hind
  have halpha : ind.any (fun c => c.isAlpha) = true := by
    unfold presentIndicators at hind
    split at hind <;> fin_cases hind <;> decide
  rw [lower_isoFmt, listInfix_eq_false_alpha ind _ (isoFmt_alpha_false y m d) halpha]
  simp

theorem monthNames_isoFmt_none (lang : String) (y m d : Nat) :
    (monthNames lang).find? (fun mn => listInfix mn.1 (lower (isoFmt y m d))) = none := by
  rw [List.find?_eq_none]
  intro mn hmn
  have halpha : mn.1.any (fun c => c.isAlpha) = true := by
    unfold monthNames at hmn
    split at hmn <;> fin_cases hmn <;> decide
  rw [lower_isoFmt, listInfix_eq_false_alpha mn.1 _ (isoFmt_alpha_false y m d) halpha]
  simp

theorem toNum_fmt02 (n : Nat) (h : n ≤ 99) : toNum (fmt02 n) = n := by
  unfold toNum fmt02
  simp only [List.foldl_cons, List.foldl_nil, digitChar_toNat]
  omega

theorem searchDMY_isoFmt (y m d : Nat) :
    searchGroups matchDMYat (isoFmt y m d) = none := by
  simp only [isoFmt, pad4, fmt02, List.cons_append, List.nil_append]
  simp [searchGroups, matchDMYat, takeDigitsUpTo2, takeDigits4, firstSome?,
    digitChar_isDigit, digitChar_dashSlash, dashSlash,
    show ('-').isDigit = false from rfl]

theorem searchYMD_isoFmt (y m d : Nat) :
    searchGroups matchYMDat (isoFmt y m d) = some (pad4 y, fmt02 m, fmt02 d) := by
  simp only [isoFmt, pad4, fmt02, List.cons_append, List.nil_append]
  simp [searchGroups, matchYMDat, takeDigitsUpTo2, takeDigits4, firstSome?,
    digitChar_isDigit, digitChar_dashSlash, dashSlash,
    show ('-').isDigit = false from rfl]

theorem normalizeNumeric_isoFmt (lang : String) (y m d : Nat) (hm : m ≤ 12) (hd : d ≤ 28) :
    normalizeNumeric lang (isoFmt y m d) = some (isoFmt y m d) := by
  unfold normalizeNumeric
  rw [searchDMY_isoFmt, searchYMD_isoFmt]
  simp only
  rw [toNum_fmt02 m (by omega), toNum_fmt02 d (by omega),
    Nat.min_eq_left hm, Nat.min_eq_left hd]
  rfl

/-! ## Claim theorems -/

/-- **C4.** Every match returned by `extract_skills` with match type `fuzzy`
    has `confidence × 100 ≥ θ`, the configured fuzzy threshold: the cutoff is
    applied when the candidate is scored, and the merge step only ever keeps
    matches that were produced by one of the two phases. -/
theorem extract_skills_fuzzy_threshold :
    ∀ (score : List Char → List Char → ℚ) (θ : ℚ) (skillsEng skillsInd : List (List Char))
      (text : List Char) (lang : String) (m : SkillMatch),
      m ∈ extract_skills score θ skillsEng skillsInd text lang →
      m.match_type = .fuzzy → m.confidence * 100 ≥ θ := by
  intro score θ se si text lang m hm hty
  simp only [extract_skills] at hm
  split at hm
  · exact absurd hm (List.not_mem_nil m)
  · split at hm <;> split at hm <;>
      first
      | exact absurd hm (List.not_mem_nil m)
      | · rcases List.mem_append.mp (mem_dedupBest hm) with he | hf
          · rcases List.mem_filterMap.mp he with ⟨s, _, hcond⟩
            split at hcond
            · injection hcond with he'
              rw [← he'] at hty
              exact absurd hty (by simp)
            · exact absurd hcond (by simp)
          · rcases List.mem_filterMap.mp hf with ⟨ph, _, hcond⟩
            split at hcond
            · exact absurd hcond (by simp)
            · split at hcond
              · rename_i sv _
                split at hcond
                · split at hcond
                  · exact absurd hcond (by simp)
                  · injection hcond with he'
                    rw [← he']
                    rename_i hθ _
                    show sv.2 / 100 * 100 ≥ θ
                    rwa [div_mul_cancel₀ sv.2 (by norm_num : (100:ℚ) ≠ 0)]
                · exact absurd hcond (by simp)
              · exact absurd hcond (by simp)

theorem extract_skills_fuzzy_threshold_witness :
    ((⟨"Python".toList, (80:ℚ) / 100, .fuzzy⟩ : SkillMatch)
        ∈ extract_skills (fun _ _ => (80:ℚ)) 50 ["Python".toList] [] "Pit".toList "eng")
    ∧ (⟨"Python".toList, (80:ℚ) / 100, .fuzzy⟩ : SkillMatch).confidence * 100 ≥ 50 := by
  have hmem : (⟨"Python".toList, (80:ℚ) / 100, .fuzzy⟩ : SkillMatch)
      ∈ extract_skills (fun _ _ => (80:ℚ)) 50 ["Python".toList] [] "Pit".toList "eng" := by
    rw [show extract_skills (fun _ _ => (80:ℚ)) 50 ["Python".toList] [] "Pit".toList "eng"
          = [⟨"Python".toList, (80:ℚ) / 100, .fuzzy⟩] from rfl]
    exact List.mem_singleton.mpr rfl
  exact ⟨hmem,
    extract_skills_fuzzy_threshold (fun _ _ => (80:ℚ)) 50 ["Python".toList] []
      "Pit".toList "eng" _ hmem rfl⟩

/-- **C3.** Every exact match produced by `extract_skills` has confidence
    exactly 1; for a skill matched exactly (it is in the dictionary and a
    case-insensitive substring of the text), the merged result contains
    exactly one entry for that skill, namely `⟨skill, 1.0, exact⟩` — fuzzy
    hits for an exactly-matched skill are discarded before the merge; and on
    the dictionary `{"Python"}` with text `"I use Python daily"`, the result
    is exactly `[{skill: Python, confidence: 1.0, match_type: exact}]` for
    every scorer and threshold. -/
theorem extract_skills_exact_merge :
    (∀ (score : List Char → List Char → ℚ) (θ : ℚ) (se si : List (List Char))
        (text : List Char) (lang : String) (m : SkillMatch),
        m ∈ extract_skills score θ se si text lang → m.match_type = .exact →
        m.confidence = 1)
    ∧ (∀ (score : List Char → List Char → ℚ) (θ : ℚ) (se si : List (List Char))
        (text : List Char) (lang : String) (s : List Char),
        s ∈ (if lang = "ind" then si else se) →
        listInfix (lower s) (lower text) = true →
        text ≠ [] → (lang = "eng" ∨ lang = "ind") →
        (extract_skills score θ se si text lang).countP (fun m => m.skill = s) = 1
          ∧ (⟨s, 1, .exact⟩ : SkillMatch) ∈ extract_skills score θ se si text lang)
    ∧ (∀ (score : List Char → List Char → ℚ) (θ : ℚ) (si : List (List Char)),
        extract_skills score θ ["Python".toList] si "I use Python daily".toList "eng"
          = [⟨"Python".toList, 1, .exact⟩]) := by
  refine ⟨?_, extract_skills_exact_unique, ?_⟩
  · intro score θ se si text lang m hm hty
    simp only [extract_skills] at hm
    split at hm
    · exact absurd hm (List.not_mem_nil m)
    · split at hm <;> split at hm <;>
        first
        | exact absurd hm (List.not_mem_nil m)
        | · rcases List.mem_append.mp (mem_dedupBest hm) with he | hf
            · rcases List.mem_filterMap.mp he with ⟨s, _, hcond⟩
              split at hcond
              · injection hcond with he'
                rw [← he']
              · exact absurd hcond (by simp)
            · rcases List.mem_filterMap.mp hf with ⟨ph, _, hcond⟩
              split at hcond
              · exact absurd hcond (by simp)
              · split at hcond
                · split at hcond
                  · split at hcond
                    · exact absurd hcond (by simp)
                    · injection hcond with he'
                      rw [← he'] at hty
                      exact absurd hty (by simp)
                  · exact absurd hcond (by simp)
                · exact absurd hcond (by simp)
  · intro score θ si
    obtain ⟨hcount, hmem⟩ := extract_skills_exact_unique score θ ["Python".toList] si
      "I use Python daily".toList "eng" "Python".toList (by simp) rfl (by decide)
      (Or.inl rfl)
    have hall : ∀ m ∈ extract_skills score θ ["Python".toList] si
        "I use Python daily".toList "eng", (fun m => decide (m.skill = "Python".toList)) m = true := by
      intro m hm
      exact decide_eq_true (List.mem_singleton.mp
        (extract_skills_skill_mem score θ ["Python".toList] si
          "I use Python daily".toList "eng" m hm))
    have hlen := (List.countP_eq_length.mpr hall).symm.trans hcount
    obtain ⟨a, ha⟩ := List.length_eq_one.mp hlen
    rw [ha] at hmem ⊢
    rcases List.mem_singleton.mp hmem with rfl
    rfl

theorem extract_skills_exact_merge_witness :
    (extract_skills (fun _ _ => (0:ℚ)) 0 ["Python".toList] []
        "I use Python daily".toList "eng").countP (fun m => m.skill = "Python".toList) = 1
      ∧ (⟨"Python".toList, 1, .exact⟩ : SkillMatch)
        ∈ extract_skills (fun _ _ => (0:ℚ)) 0 ["Python".toList] []
            "I use Python daily".toList "eng" :=
  extract_skills_exact_merge.2.1 (fun _ _ => 0) 0 ["Python".toList] []
    "I use Python daily".toList "eng" "Python".toList (by decide) rfl (by decide)
    (Or.inl rfl)

/-- **C7.** Adding a valid email to an otherwise-empty `PersonalInfo` never
    decreases `personal_info_score`: if every validity flag of the first
    record reads false and the second record differs only in a true
    `email_valid` flag, the score of the second is at least that of the
    first (the empty record scores 0). -/
theorem personal_info_score_email_monotone :
    ∀ (h : Heap) (v0 v1 : Option PVal),
      scoreFlag h v0 "name_valid" = false → scoreFlag h v0 "email_valid" = false →
      scoreFlag h v0 "phone_valid" = false → scoreFlag h v0 "address_valid" = false →
      scoreFlag h v1 "name_valid" = false → scoreFlag h v1 "email_valid" = true →
      scoreFlag h v1 "phone_valid" = false → scoreFlag h v1 "address_valid" = false →
      compute_personal_info_score h v0 ≤ compute_personal_info_score h v1 := by
  intro h v0 v1 hn0 he0 hp0 ha0 _ _ _ _
  have h0 : compute_personal_info_score h v0 = 0 := by
    simp only [compute_personal_info_score]
    split
    · split
      · rfl
      · simp only [scoreFlag] at hn0 he0 hp0 ha0
        rw [hn0, he0, hp0, ha0]
        simp [scoreFromFlags]
    · rfl
  rw [h0]
  exact (compute_personal_info_score_bounds h v1).1


theorem personal_info_score_email_monotone_witness :
    compute_personal_info_score heapC7 (some (.ref 0))
      ≤ compute_personal_info_score heapC7 (some (.ref 1)) :=
  personal_info_score_email_monotone heapC7 (some (.ref 0)) (some (.ref 1))
    rfl rfl rfl rfl rfl rfl rfl rfl


/-- **C8.** Both aggregate scores are bounded to the unit interval: the
    `overall` confidence of every record produced by `extract_entities` lies
    in [0,1], and `compute_overall_validation_score` — the weighted sum
    0.4·personal + 0.2·education + 0.2·experience + 0.2·skills of component
    scores each in [0,1] — lies in [0,1] for every heap and record dict. -/
theorem scores_bounded :
    (∀ (doc : SpacyDoc) (lang : String) (r : ExtractedRecord),
        extract_entities doc lang = .ok r →
        0 ≤ r.confidence_scores.overall ∧ r.confidence_scores.overall ≤ 1)
    ∧ (∀ (h : Heap) (d : PDict),
        0 ≤ compute_overall_validation_score h d
          ∧ compute_overall_validation_score h d ≤ 1) := by
  constructor
  · intro doc lang r hr
    simp only [extract_entities, bind, Except.bind, pure, Except.pure] at hr
    split at hr
    · exact absurd hr (by simp)
    · split at hr
      · exact absurd hr (by simp)
      · split at hr
        · exact absurd hr (by simp)
        · split at hr
          · exact absurd hr (by simp)
          · split at hr
            · exact absurd hr (by simp)
            · injection hr with hr'
              rw [← hr']
              exact calculate_overall_confidence_bounds _ _ _ _
  · intro h d
    have h1 := compute_personal_info_score_bounds h (dictGet d "personal_info")
    have h2 := compute_education_score_bounds h (dictGet d "education")
    have h3 := compute_experience_score_bounds h (dictGet d "work_experience")
    have h4 := compute_skills_score_bounds (dictGet d "skills")
    unfold compute_overall_validation_score
    constructor <;> nlinarith [h1.1, h1.2, h2.1, h2.2, h3.1, h3.2, h4.1, h4.2]


theorem scores_bounded_witness :
    extract_entities docEmpty "eng" = .ok
      { personal_info := ⟨none, none, none, none⟩, skills := [], education := []
      , work_experience := [], languages := [], certifications := [], summary := none
      , confidence_scores := ⟨0.5, 0, 0.0, 0.0, 0.0⟩ }
    ∧ (0 ≤ (0.5 : ℚ) ∧ (0.5 : ℚ) ≤ 1) :=
  ⟨rfl, scores_bounded.1 docEmpty "eng"
    { personal_info := ⟨none, none, none, none⟩, skills := [], education := []
    , work_experience := [], languages := [], certifications := [], summary := none
    , confidence_scores := ⟨0.5, 0, 0.0, 0.0, 0.0⟩ } rfl⟩

/-- **C9.** `validate_extracted_data` is non-destructive: it returns a fresh
    record object (allocated at the old end of the heap), every pre-existing
    heap cell — the input record and all its nested personal_info, education,
    work_experience and skills values — is unchanged, and the new record has
    the validation scores attached (its `validation` key points to a dict
    whose `overall_score` is a number). -/
theorem validate_extracted_data_frame :
    ∀ (h : Heap) (a : Nat),
      (validate_extracted_data h a).1 = h.length
      ∧ h.length ≤ (validate_extracted_data h a).2.length
      ∧ (∀ i, i < h.length → (validate_extracted_data h a).2[i]? = h[i]?)
      ∧ (∃ vb q,
          dictGet (getObj (validate_extracted_data h a).2 (validate_extracted_data h a).1)
              "validation" = some (.ref vb)
          ∧ dictGet (getObj (validate_extracted_data h a).2 vb) "overall_score"
              = some (.num q)) := by
  intro h a
  set d := getObj h a with hd
  set H1 : Heap := h ++ [d] with hH1
  set H2 : Heap := vedPersonal d h.length H1 with hH2
  set H3 : Heap := vedEducation d h.length H2 with hH3
  set H4 : Heap := vedWork d h.length H3 with hH4
  set H5 : Heap := vedSkills d h.length H4 with hH5
  have hval : validate_extracted_data h a
      = (h.length, hset (H5 ++ [vedScores H5 h.length]) h.length "validation"
          (.ref H5.length)) := rfl
  have e1 : Ext h.length h H1 := ext_alloc _ h d le_rfl
  have s1 := vedPersonal_ext h.length d h.length H1 e1.2.1 le_rfl
  have e2 : Ext h.length h H2 := ext_trans e1 s1
  have s2 := vedEducation_ext h.length d h.length H2 e2.2.1 le_rfl
  have e3 : Ext h.length h H3 := ext_trans e2 s2
  have s3 := vedWork_ext h.length d h.length H3 e3.2.1 le_rfl
  have e4 : Ext h.length h H4 := ext_trans e3 s3
  have s4 := vedSkills_ext h.length d h.length H4 e4.2.1 le_rfl
  have e5 : Ext h.length h H5 := ext_trans e4 s4
  have hlt : h.length < H5.length := by
    have l1 : H1.length = h.length + 1 := by rw [hH1]; simp
    have m1 := s1.1
    rw [← hH2] at m1
    have m2 := s2.1
    rw [← hH3] at m2
    have m3 := s3.1
    rw [← hH4] at m3
    have m4 := s4.1
    rw [← hH5] at m4
    omega
  have e6 : Ext h.length h (H5 ++ [vedScores H5 h.length]) :=
    ext_trans e5 (ext_alloc _ _ _ e5.2.1)
  have e7 := ext_hset (H5 ++ [vedScores H5 h.length]) h.length "validation"
    (.ref H5.length) e6 le_rfl
  refine ⟨by rw [hval], by rw [hval]; exact e7.2.1,
    fun i hi => by rw [hval]; exact e7.2.2 i hi,
    H5.length, compute_overall_validation_score H5 (getObj H5 h.length), ?_, ?_⟩
  · rw [hval]
    rw [getObj_hset_self _ _ _ _ (by rw [List.length_append]; simp; omega)]
    exact dictGet_dictSet_self _ _ _
  · rw [hval]
    rw [getObj_hset_ne _ _ _ _ _ (by omega : h.length ≠ H5.length)]
    rw [getObj_append_self]
    rfl

theorem validate_extracted_data_frame_witness :
    (validate_extracted_data heapRec 0).1 = heapRec.length
    ∧ (validate_extracted_data heapRec 0).2[2]? = heapRec[2]? :=
  ⟨(validate_extracted_data_frame heapRec 0).1,
   (validate_extracted_data_frame heapRec 0).2.2.1 2 (by decide)⟩

/-- **C5.** Date normalization is idempotent on ISO-form dates: for every
    already-ISO string `YYYY-MM-DD` (month at most 12 and day at most 28),
    `normalize_date` returns the same date unchanged — the present-indicator,
    year-only and month-name branches do not fire on a digits-and-dashes
    string, the day-first numeric pattern cannot match it, and the ISO
    pattern reproduces it under the clamping rules; embedded in surrounding
    text, `extract_dates` yields the same date back as a span (alongside a
    bare-year span, cf. C10). -/
theorem normalize_date_iso_idempotent :
    (∀ (y m d : Nat) (lang : String) (today : List Char),
      1000 ≤ y → y ≤ 9999 → 1 ≤ m → m ≤ 12 → 1 ≤ d → d ≤ 28 →
      normalize_date today lang (isoFmt y m d) = some (isoFmt y m d))
    ∧ (∀ today, extract_dates today "from 2019-05-07 onward".toList "eng"
        = [⟨"2019-05-07".toList, "2019-05-07".toList, false, 5, 15⟩,
           ⟨"2019".toList, "2019-01-01".toList, false, 5, 9⟩]) := by
  constructor
  · intro y m d lang today _ _ _ hm _ hd
    unfold normalize_date
    rw [is_present_isoFmt]
    simp only [Bool.false_eq_true, if_false]
    have htail : normalize_date.normalizeMonthOrNumeric today lang (isoFmt y m d)
        = some (isoFmt y m d) := by
      unfold normalize_date.normalizeMonthOrNumeric
      rw [monthNames_isoFmt_none]
      exact normalizeNumeric_isoFmt lang y m d hm hd
    cases hy : search pYearB (isoFmt y m d) with
    | none => exact htail
    | some ym =>
      rw [strip_isoFmt, length_isoFmt]
      norm_num
      exact htail
  · intro today
    rfl

theorem normalize_date_iso_idempotent_witness :
    normalize_date "T".toList "eng" (isoFmt 2019 5 7) = some (isoFmt 2019 5 7)
    ∧ (⟨"2019-05-07".toList, "2019-05-07".toList, false, 5, 15⟩ : DateSpan)
        ∈ extract_dates "T".toList "from 2019-05-07 onward".toList "eng" := by
  constructor
  · exact normalize_date_iso_idempotent.1 2019 5 7 "eng" "T".toList (by norm_num)
      (by norm_num) (by norm_num) (by norm_num) (by norm_num) (by norm_num)
  · rw [normalize_date_iso_idempotent.2 "T".toList]
    exact List.mem_cons_self _ _

/-- **C1** (code bug): for the supported language tag `'ind'`, the languages
    extractor's keyword-table access `language_keywords[lang_code]` raises a
    `KeyError` on any document with at least one sentence, and this exception
    propagates out of `extract_entities`, aborting extraction of the remaining
    fields — contradicting the specified absorb-locally error policy. -/
theorem extract_entities_ind_keyerror :
    extract_entities docIndCrash "ind" = .error "KeyError: ind" := rfl

/-- **C2.** `extract_date_range` implements exactly the claimed range assembly:
    zero spans → both `none`; one span → present indicator to `end_date`,
    otherwise `start_date`; two or more spans → sort by position (a stable
    ascending sort, shown by the pairwise/permutation conjunct) and take the
    first consecutive pair with a separator strictly between them, falling
    back to the first and last spans.  Moreover
    `extract_date_range "January 2019 - Present" "eng" = ("2019-01-01", today)`
    for any non-empty `today` string, and
    `extract_date_range "2019" "eng" = ("2019-01-01", none)`. -/
theorem extract_date_range_assembly :
    (∀ today text lang, extract_date_range today text lang = date_range_claim today text lang)
    ∧ (∀ l : List DateSpan,
        (sortByPos l).Pairwise (fun a b => a.startPos ≤ b.startPos) ∧ (sortByPos l).Perm l)
    ∧ (∀ (c : Char) (rest : List Char),
        extract_date_range (c :: rest) "January 2019 - Present".toList "eng"
          = (some "2019-01-01".toList, some (c :: rest)))
    ∧ (∀ today, extract_date_range today "2019".toList "eng"
          = (some "2019-01-01".toList, none)) := by
  refine ⟨?_, fun l => ⟨sortByPos_pairwise l, sortByPos_perm l⟩, fun _ _ => rfl, fun _ => rfl⟩
  intro today text lang
  unfold extract_date_range date_range_claim
  cases h : extract_dates today text lang with
  | nil => rfl
  | cons d t =>
    cases t with
    | nil => rfl
    | cons d2 t' =>
      simp only [findSepPair_eq]

/-- **C6.** A document with zero sentences, zero entities (and hence no text)
    yields, for both supported languages, an `ExtractedRecord` with every list
    field empty, every scalar field `None`, and overall confidence `0.5` by
    the missing-name-or-email rule; no extractor fails (the result is `.ok`). -/
theorem extract_entities_degenerate :
    ∀ (doc : SpacyDoc) (lang : String), (lang = "eng" ∨ lang = "ind") →
      doc.text = [] → doc.sents = [] → doc.ents = [] →
      extract_entities doc lang = .ok
        { personal_info := ⟨none, none, none, none⟩, skills := [], education := []
        , work_experience := [], languages := [], certifications := [], summary := none
        , confidence_scores := ⟨0.5, 0, 0.0, 0.0, 0.0⟩ } := by
  rintro ⟨dt, ds, de⟩ lang (rfl | rfl) rfl rfl rfl <;> rfl

theorem extract_entities_degenerate_witness :
    extract_entities docEmpty "eng" = .ok
      { personal_info := ⟨none, none, none, none⟩, skills := [], education := []
      , work_experience := [], languages := [], certifications := [], summary := none
      , confidence_scores := ⟨0.5, 0, 0.0, 0.0, 0.0⟩ } :=
  extract_entities_degenerate docEmpty "eng" (Or.inl rfl) rfl rfl rfl

/-- **C10.** On the single written date `"May 5, 2019"` (English), the
    month-name pattern and the bare-year pattern produce two overlapping spans
    — positions (0,11) and (7,11) — normalized to `2019-05-05` and
    `2019-01-01`; with no separator between them (the slice between positions
    11 and 7 is empty) the fallback uses first and last, so the resulting
    range has both endpoints non-null and `end_date` chronologically before
    `start_date`. -/
theorem extract_date_range_single_written_date :
    ∀ today,
      extract_dates today "May 5, 2019".toList "eng"
        = [⟨"May 5, 2019".toList, "2019-05-05".toList, false, 0, 11⟩,
           ⟨"2019".toList, "2019-01-01".toList, false, 7, 11⟩]
      ∧ extract_date_range today "May 5, 2019".toList "eng"
        = (some "2019-05-05".toList, some "2019-01-01".toList) :=
  fun _ => ⟨rfl, rfl⟩

end CV



